import Mathlib

/-!
# QueueLab: the string queue of `queue.c`

A shallow embedding of `queue.c` (a singly linked queue of C strings with head
and tail pointers) and the properties its specification states about it.

## Memory model

* A pointer is `Option Nat`: `none` is `NULL`, `some a` is the address `a`.
* List elements and strings live in two arenas of a `Heap`, indexed by address.
  `malloc` hands out the next fresh address of the arena (or `NULL` when the
  allocation oracle says it fails); addresses are not handed out twice.
* `free` records the released address in `freedEles` / `freedStrs` and leaves
  the bytes of the block where they are, so a load or store through a stale
  pointer still acts on the old block. Which accesses touch a released block
  can be read off the `freed` lists. The operations are given a second time
  with every such access checked (`q_insert_tail_checked`, `run_checked`, ...):
  there an access to a released block has no defined outcome, as in C. The
  statements about all runs from `q_new` are made on the checked operations.
* A load or store through `NULL`, through an address that was never allocated,
  or outside the caller's buffer has no defined outcome: the operation yields
  `none`.
* A C string argument is the list of bytes found at the pointer; the string it
  denotes is the part before the first zero byte (`cstr`).
* `size_t` is 64 bits wide; `bufsize - 1` is computed modulo `2 ^ 64`.
* `int` is 32 bits wide; `q_size` returns the count modulo `2 ^ 32`, in the
  range of `int`.
-/

namespace QueueLab

/-! ## Data model -/

/-- Modelled from the spec: `queue.h`, which declares the list element type, is
not among the sources. The fields are the two that `queue.c` accesses:
`value` (a `char *`, an address in the string arena) and `next` (a pointer to
the following element). -/
structure list_ele_t where
  value : Option Nat
  next : Option Nat
deriving DecidableEq

/-- Modelled from the spec: `queue.h`, which declares the queue structure, is
not among the sources. The fields are the three that `queue.c` accesses:
`head`, `tail` and `size`. The declared width of `size` is in the missing
header, so the field holds the count as an integer; `q_size`, whose return
type `int` is in `queue.c`, converts it. -/
structure queue_t where
  head : Option Nat
  tail : Option Nat
  size : Int
deriving DecidableEq

/-- The heap: every element block and every string block handed out so far, by
address, and the addresses passed to `free`, in the order of the calls. -/
structure Heap where
  eles : List list_ele_t
  strs : List (List Nat)
  freedEles : List Nat
  freedStrs : List Nat
deriving DecidableEq

/-- What an insertion returns: the C return value, the heap and the queue
structure after the call (`none` for a `NULL` queue pointer). -/
structure Result where
  ret : Bool
  heap : Heap
  q : Option queue_t
deriving DecidableEq

/-- What `q_remove_head` returns: as `Result`, and the caller's buffer after
the call (`none` when `sp` is `NULL`). -/
structure RemoveResult where
  ret : Bool
  heap : Heap
  q : Option queue_t
  sp : Option (List Nat)
deriving DecidableEq

/-! ## The C library calls used by `queue.c` -/

/-- The call `malloc(sizeof(list_ele_t))`: a fresh element block (its fields not yet
written, modelled as `NULL`), or `NULL` when the allocation fails. -/
def malloc_ele (h : Heap) (ok : Bool) : Heap × Option Nat :=
  if ok then ({ h with eles := h.eles ++ [⟨none, none⟩] }, some h.eles.length)
  else (h, none)

/-- The call `malloc(n * sizeof(char))`: a fresh block of `n` bytes, or `NULL`. -/
def malloc_str (h : Heap) (n : Nat) (ok : Bool) : Heap × Option Nat :=
  if ok then ({ h with strs := h.strs ++ [List.replicate n 0] }, some h.strs.length)
  else (h, none)

/-- The call `free(p)` on an element block. -/
def free_ele (h : Heap) (a : Nat) : Heap :=
  { h with freedEles := h.freedEles ++ [a] }

/-- The call `free(p)` on a string block. -/
def free_str (h : Heap) (a : Nat) : Heap :=
  { h with freedStrs := h.freedStrs ++ [a] }

/-- The C string found in a byte sequence: the bytes before the first zero. -/
def cstr (s : List Nat) : List Nat :=
  s.takeWhile (fun c => c ≠ 0)

/-- The call `strlen(s)`. -/
def strlen (s : List Nat) : Nat :=
  (cstr s).length

/-- The call `strcpy(data, s)` into the string block at address `d`: the characters of `s`
and the terminator; a block too short for them is overrun. -/
def strcpy (h : Heap) (d : Nat) (s : List Nat) : Option Heap :=
  match h.strs[d]? with
  | none => none
  | some b =>
    if strlen s + 1 ≤ b.length then
      some { h with strs := h.strs.set d (cstr s ++ 0 :: b.drop (strlen s + 1)) }
    else none

/-- The store `p->value = v`. -/
def set_value (h : Heap) (a : Nat) (v : Option Nat) : Option Heap :=
  match h.eles[a]? with
  | none => none
  | some e => some { h with eles := h.eles.set a { e with value := v } }

/-- The store `p->next = n`. -/
def set_next (h : Heap) (a : Nat) (n : Option Nat) : Option Heap :=
  match h.eles[a]? with
  | none => none
  | some e => some { h with eles := h.eles.set a { e with next := n } }

/-- Subtraction of `size_t` values, modulo `2 ^ 64`: `a - b` wraps around when
`a < b`. -/
def size_sub (a b : Nat) : Nat :=
  if b ≤ a then a - b else a + 2 ^ 64 - b

/-- The call `strncpy(dst, src, n)`: the first `n` characters of the string at `src`, padded
with zero bytes up to `n` bytes in all; the rest of `dst` is kept. Writing `n`
bytes into a shorter buffer overruns it. -/
def strncpy (dst src : List Nat) (n : Nat) : Option (List Nat) :=
  if n ≤ dst.length then
    some ((cstr src).take n ++ List.replicate (n - strlen src) 0 ++ dst.drop n)
  else none

/-- The store `*(sp + i) = c` into the caller's buffer. -/
def store (buf : List Nat) (i : Nat) (c : Nat) : Option (List Nat) :=
  if i < buf.length then some (buf.set i c) else none

/-! ## The operations of `queue.c` -/

/-- The function `q_new`: the empty queue, or `NULL` when `malloc` fails. -/
def q_new (ok : Bool) : Option queue_t :=
  if ok then some { head := none, tail := none, size := 0 } else none

/-- The function `q_insert_head`. `okNode` and `okStr` say whether the two `malloc` calls
succeed. -/
def q_insert_head (h : Heap) (q : Option queue_t) (s : Option (List Nat))
    (okNode okStr : Bool) : Option Result :=
  match q with
  | none => some ⟨false, h, none⟩
  | some q =>
    match malloc_ele h okNode with
    | (_, none) => some ⟨false, h, some q⟩
    | (h1, some newNode) =>
      match s with
      | none => none
      | some s =>
        match malloc_str h1 (strlen s + 1) okStr with
        | (_, none) => some ⟨false, free_ele h1 newNode, some q⟩
        | (h2, some data) =>
          (strcpy h2 data s).bind fun h3 =>
          (set_value h3 newNode (some data)).bind fun h4 =>
          if q.head = none then
            (set_next h4 newNode none).bind fun h5 =>
            some ⟨true, h5, some { head := some newNode, tail := some newNode,
                                   size := q.size + 1 }⟩
          else
            (set_next h4 newNode q.head).bind fun h5 =>
            some ⟨true, h5, some { head := some newNode, tail := q.tail,
                                   size := q.size + 1 }⟩

/-- The function `q_insert_tail`. -/
def q_insert_tail (h : Heap) (q : Option queue_t) (s : Option (List Nat))
    (okNode okStr : Bool) : Option Result :=
  match q, s with
  | none, _ => some ⟨false, h, none⟩
  | some q, none => some ⟨false, h, some q⟩
  | some q, some s =>
    match malloc_ele h okNode with
    | (_, none) => some ⟨false, h, some q⟩
    | (h1, some newNode) =>
      match malloc_str h1 (strlen s + 1) okStr with
      | (_, none) => some ⟨false, free_ele h1 newNode, some q⟩
      | (h2, some data) =>
        (strcpy h2 data s).bind fun h3 =>
        (set_value h3 newNode (some data)).bind fun h4 =>
        (match q.tail with
          | none => some (h4, some newNode)
          | some t => (set_next h4 t (some newNode)).map fun h5 => (h5, q.head)).bind
        fun (h5, head1) =>
        (set_next h5 newNode none).bind fun h6 =>
        some ⟨true, h6, some { head := head1, tail := some newNode, size := q.size + 1 }⟩

/-- The function `q_remove_head`. `sp` is the caller's buffer (`none` for `NULL`), `bufsize`
the capacity the caller passes for it. -/
def q_remove_head (h : Heap) (q : Option queue_t) (sp : Option (List Nat))
    (bufsize : Nat) : Option RemoveResult :=
  match q with
  | none => some ⟨false, h, none, sp⟩
  | some q =>
    match q.head with
    | none => some ⟨false, h, some q, sp⟩
    | some hd =>
      (h.eles[hd]?).bind fun e =>
      (match sp with
        | none => some none
        | some buf =>
          e.value.bind fun v =>
          (h.strs[v]?).bind fun b =>
          (strncpy buf b (size_sub bufsize 1)).bind fun buf1 =>
          (store buf1 (size_sub bufsize 1) 0).map some).bind
      fun sp1 =>
      let h1 := match e.value with
        | none => h
        | some v => free_str h v
      some ⟨true, free_ele h1 hd, some { head := e.next, tail := q.tail, size := q.size - 1 },
            sp1⟩

/-- The largest value of the C type `int` (32 bits). -/
def INT_MAX : Int := 2147483647

/-- The value that an integer has as a C `int`: its representative modulo `2 ^ 32`
in the range `-2 ^ 31 .. 2 ^ 31 - 1`. -/
def to_int (x : Int) : Int :=
  (x + 2147483648) % 4294967296 - 2147483648

/-- The count kept in the `size` field, 0 for an absent queue. -/
def q_count (q : Option queue_t) : Int :=
  match q with
  | none => 0
  | some q => q.size

/-- The function `q_size`. Its result is a C `int`: the count in the `size` field as
far as an `int` can hold it. -/
def q_size (q : Option queue_t) : Int :=
  match q with
  | none => 0
  | some q => to_int q.size

/-- The `while` loop of `q_reverse`, from the values of `tempNode` and `prevNode` at
its test; it returns the heap and `prevNode` at its exit. Each iteration uses
one unit of fuel. -/
def q_reverse_loop : Nat → Heap → Option Nat → Option Nat → Option (Heap × Option Nat)
  | _, h, none, prevNode => some (h, prevNode)
  | 0, _, some _, _ => none
  | fuel + 1, h, some t, prevNode =>
    (h.eles[t]?).bind fun e =>
    (set_next h t prevNode).bind fun h1 =>
    q_reverse_loop fuel h1 e.next (some t)

/-- The function `q_reverse`. The loop is given twice as many iterations as there are
element blocks, more than the chain of any queue needs. -/
def q_reverse (h : Heap) (q : Option queue_t) : Option (Heap × Option queue_t) :=
  match q with
  | none => some (h, none)
  | some q =>
    match q.head with
    | none => some (h, some q)
    | some hd =>
      (h.eles[hd]?).bind fun e =>
      (set_next h hd none).bind fun h1 =>
      (q_reverse_loop (2 * h.eles.length) h1 e.next (some hd)).bind fun (h2, prevNode) =>
      some (h2, some { head := prevNode, tail := q.head, size := q.size })

/-- The `while` loop of `q_free`, from the value of `currNode` at its test: each
iteration reads the `next` of the element, releases its string when `value`
is not `NULL`, and releases the element. Each iteration uses one unit of
fuel. -/
def q_free_loop : Nat → Heap → Option Nat → Option Heap
  | _, h, none => some h
  | 0, _, some _ => none
  | fuel + 1, h, some c =>
    (h.eles[c]?).bind fun e =>
    let h1 := match e.value with
      | none => h
      | some v => free_str h v
    q_free_loop fuel (free_ele h1 c) e.next

/-- The function `q_free`. It returns the heap after the call and whether the queue
structure itself was passed to `free`. The loop is given as many iterations
as there are element blocks, which the chain of any queue stays within. -/
def q_free (h : Heap) (q : Option queue_t) : Option (Heap × Bool) :=
  match q with
  | none => some (h, false)
  | some q => (q_free_loop h.eles.length h q.head).map fun h1 => (h1, true)

/-! ## Reading a queue -/

/-- The element addresses met when following `next` links from `p` until `NULL`,
with at most `fuel` hops; `none` when the links do not end within the fuel or
lead outside the arena. -/
def chainFrom (h : Heap) : Nat → Option Nat → Option (List Nat)
  | _, none => some []
  | 0, some _ => none
  | fuel + 1, some a =>
    (h.eles[a]?).bind fun e => (chainFrom h fuel e.next).map fun l => a :: l

/-- The chain from `p`. A chain without a cycle visits each element block at
most once, so as many hops as there are blocks are enough. -/
def chain (h : Heap) (p : Option Nat) : Option (List Nat) :=
  chainFrom h h.eles.length p

/-- The relation behind `chainFrom`: `l` lists the elements from `p` to the one
whose `next` is `NULL`. -/
def IsChain (h : Heap) : Option Nat → List Nat → Prop
  | p, [] => p = none
  | p, a :: l => p = some a ∧ ∃ e, h.eles[a]? = some e ∧ IsChain h e.next l

/-- The `value` pointer stored in the element at `a`. -/
def valueOf (h : Heap) (a : Nat) : Option Nat :=
  (h.eles[a]?).bind fun e => e.value

/-- The string stored for the element at `a`: the C string in the block its
`value` points to. -/
def payload (h : Heap) (a : Nat) : Option (List Nat) :=
  (valueOf h a).bind fun v => (h.strs[v]?).map cstr

/-- The strings of the elements of `l`, in order. -/
def payloads (h : Heap) : List Nat → Option (List (List Nat))
  | [] => some []
  | a :: l => (payload h a).bind fun p => (payloads h l).map fun ps => p :: ps

/-- The head-to-tail payload sequence of a queue. -/
def contents (h : Heap) (q : queue_t) : Option (List (List Nat)) :=
  (chain h q.head).bind (payloads h)

/-- The addresses passed to `free` are addresses that `malloc` handed out. -/
def HeapOk (h : Heap) : Prop :=
  (∀ a ∈ h.freedEles, a < h.eles.length) ∧ (∀ v ∈ h.freedStrs, v < h.strs.length)

/-- The state every sequence of calls keeps, with `l` the chain from `head`: the
chain ends, `size` is at least its length, `tail` is its last element when
there is one, `tail` is an address that was handed out, and every element of
the chain is unreleased and owns an unreleased string of its own. -/
structure InvAt (h : Heap) (q : queue_t) (l : List Nat) : Prop where
  heap : HeapOk h
  chain : chain h q.head = some l
  size : (l.length : Int) ≤ q.size
  tail : l ≠ [] → q.tail = l.getLast?
  tailValid : ∀ t, q.tail = some t → t < h.eles.length
  live : ∀ a ∈ l, a ∉ h.freedEles
  value : ∀ a ∈ l, ∃ v, valueOf h a = some v ∧ v < h.strs.length ∧ v ∉ h.freedStrs
  owned : (l.map (valueOf h)).Nodup

/-- The invariant of reachable states. -/
def Inv (h : Heap) (q : queue_t) : Prop :=
  ∃ l, InvAt h q l

/-- A well-formed queue with chain `l`, the invariant of the data model: on top
of `InvAt`, `size` is exactly the length of the chain from `head`, and `tail`
is `NULL` when the chain is empty (so `tail` is the last element of the chain
in every case). -/
structure WellFormedAt (h : Heap) (q : queue_t) (l : List Nat) extends InvAt h q l : Prop where
  size_eq : q.size = (l.length : Int)
  tail_nil : l = [] → q.tail = none

/-- A well-formed queue. -/
def WellFormed (h : Heap) (q : queue_t) : Prop :=
  ∃ l, WellFormedAt h q l

/-- The caller's side of the contract of `q_remove_head`: no buffer, or a
buffer of at least `bufsize` bytes for a capacity `bufsize` that is a positive
`size_t`. -/
def BufferOk (sp : Option (List Nat)) (bufsize : Nat) : Prop :=
  ∀ buf, sp = some buf → 1 ≤ bufsize ∧ bufsize ≤ buf.length ∧ bufsize < 2 ^ 64

/-! ## Sequences of calls -/

/-- A call of one of the four operations on the queue, with its arguments and,
for an insertion, the outcome of its two allocations. -/
inductive Op where
  | insert_head (s : Option (List Nat)) (okNode okStr : Bool)
  | insert_tail (s : Option (List Nat)) (okNode okStr : Bool)
  | remove_head (sp : Option (List Nat)) (bufsize : Nat)
  | reverse
deriving DecidableEq

/-- The state of a run: heap, queue, and how many insertions and removals have
returned `true` so far. -/
structure Run where
  heap : Heap
  q : Option queue_t
  inserted : Nat
  removed : Nat
deriving DecidableEq

/-- One call. -/
def step (r : Run) : Op → Option Run
  | .insert_head s okNode okStr =>
    (q_insert_head r.heap r.q s okNode okStr).map fun x =>
      { heap := x.heap, q := x.q, inserted := r.inserted + (if x.ret then 1 else 0),
        removed := r.removed }
  | .insert_tail s okNode okStr =>
    (q_insert_tail r.heap r.q s okNode okStr).map fun x =>
      { heap := x.heap, q := x.q, inserted := r.inserted + (if x.ret then 1 else 0),
        removed := r.removed }
  | .remove_head sp bufsize =>
    (q_remove_head r.heap r.q sp bufsize).map fun x =>
      { heap := x.heap, q := x.q, inserted := r.inserted,
        removed := r.removed + (if x.ret then 1 else 0) }
  | .reverse =>
    (q_reverse r.heap r.q).map fun x =>
      { heap := x.1, q := x.2, inserted := r.inserted, removed := r.removed }

/-- A sequence of calls, one after the other. -/
def run (r : Run) : List Op → Option Run
  | [] => some r
  | op :: ops => (step r op).bind fun r1 => run r1 ops

/-- The start of a run: the heap at the time of the call of `q_new` and the queue
it returns. -/
def start (h : Heap) (ok : Bool) : Run :=
  { heap := h, q := q_new ok, inserted := 0, removed := 0 }

/-- The heap in which nothing has been allocated. -/
def emptyHeap : Heap :=
  { eles := [], strs := [], freedEles := [], freedStrs := [] }

/-- What the caller owes each call: a string for `q_insert_head` (the function
reads it without a check), and a buffer that fits for `q_remove_head`. -/
def Op.Valid : Op → Prop
  | .insert_head s _ _ => s ≠ none
  | .insert_tail _ _ _ => True
  | .remove_head sp bufsize => BufferOk sp bufsize
  | .reverse => True

/-- What a run keeps: the invariant of the queue when there is one, and a count in
`size` that is the number of successful insertions less the successful
removals. -/
def RunInv (r : Run) : Prop :=
  HeapOk r.heap ∧ (∀ q, r.q = some q → Inv r.heap q) ∧
    q_count r.q = (r.inserted : Int) - (r.removed : Int)

/-- Calls of `q_remove_head` in a row, `n` of them, all into one buffer (each call
finds it as the call before left it) with the same capacity; each call is
recorded with its return value and the string it left in the buffer. -/
def remove_heads : Nat → Heap → Option queue_t → List Nat → Nat →
    Option (Heap × Option queue_t × List (Bool × List Nat))
  | 0, h, q, _, _ => some (h, q, [])
  | n + 1, h, q, buf, bufsize =>
    (q_remove_head h q (some buf) bufsize).bind fun r =>
    (remove_heads n r.heap r.q (r.sp.getD buf) bufsize).map fun x =>
      (x.1, x.2.1, (r.ret, cstr (r.sp.getD buf)) :: x.2.2)

/-- The heap of the queue `c, a, b` built by `q_insert_tail "a"`, `q_insert_tail "b"`
and `q_insert_head "c"` on a new queue. -/
def heapCAB : Heap :=
  { eles := [⟨some 0, some 1⟩, ⟨some 1, none⟩, ⟨some 2, some 0⟩],
    strs := [[97, 0], [98, 0], [99, 0]],
    freedEles := [], freedStrs := [] }

/-- The queue `c, a, b`. -/
def queueCAB : queue_t :=
  { head := some 2, tail := some 1, size := 3 }

/-- The heap of the queue `a` built by `q_insert_tail "a"` on a new queue. -/
def heapA : Heap :=
  { eles := [⟨some 0, none⟩], strs := [[97, 0]], freedEles := [], freedStrs := [] }

/-- The queue `a`: one element, which is both head and tail. -/
def queueA : queue_t :=
  { head := some 0, tail := some 0, size := 1 }

/-- The calls that fill a new queue with one string and remove it again. -/
def fillAndEmpty : List Op :=
  [Op.insert_tail (some [97]) true true, Op.remove_head (some [0, 0]) 2]

/-- The element blocks that are live: handed out by `malloc` and not passed to
`free`. -/
def liveEles (h : Heap) : List Nat :=
  (List.range h.eles.length).filter fun a => decide (a ∉ h.freedEles)

/-- The string blocks that are live. -/
def liveStrs (h : Heap) : List Nat :=
  (List.range h.strs.length).filter fun v => decide (v ∉ h.freedStrs)

/-- The indices of the caller's buffer that a successful `q_remove_head` with a
buffer writes: `strncpy(sp, value, bufsize - 1)` writes the `bufsize - 1` bytes
from index 0 on (characters, then zero bytes), and `*(sp + bufsize - 1) = 0`
writes the byte at index `bufsize - 1`, with `bufsize - 1` computed as a
`size_t`. -/
def Written (bufsize i : Nat) : Prop :=
  i < size_sub bufsize 1 ∨ i = size_sub bufsize 1

/-- The heap of the queue `b, a, c`: the queue `c, a, b` after `q_reverse`. -/
def heapBAC : Heap :=
  { eles := [⟨some 0, some 2⟩, ⟨some 1, some 0⟩, ⟨some 2, none⟩],
    strs := [[97, 0], [98, 0], [99, 0]],
    freedEles := [], freedStrs := [] }

/-- The queue `b, a, c`. -/
def queueBAC : queue_t :=
  { head := some 1, tail := some 2, size := 3 }

/-- The calls after which a new queue holds an element that `head` does not
reach: one string inserted and removed, then a second one inserted at the
tail. -/
def fillEmptyFill : List Op :=
  [Op.insert_tail (some [97]) true true, Op.remove_head (some [0, 0]) 2,
   Op.insert_tail (some [98]) true true]

/-! ## The operations under the rule of C for released blocks

In C a load or store through a pointer to a released block, and a second `free`
of it, have no defined outcome. The definitions of this section are the
operations of `queue.c` once more, with every access to a block that the
function did not allocate itself checked against the `freed` lists: the outcome
is `none` when the block has been released. -/

/-- A load `p->value` or `p->next` from the element at `a`. -/
def load_ele (h : Heap) (a : Nat) : Option list_ele_t :=
  if a ∈ h.freedEles then none else h.eles[a]?

/-- A load of the string in the block at `v`. -/
def load_str (h : Heap) (v : Nat) : Option (List Nat) :=
  if v ∈ h.freedStrs then none else h.strs[v]?

/-- The store `p->next = n` into an unreleased element. -/
def set_next_checked (h : Heap) (a : Nat) (n : Option Nat) : Option Heap :=
  if a ∈ h.freedEles then none else set_next h a n

/-- The store `p->value = v` into an unreleased element. -/
def set_value_checked (h : Heap) (a : Nat) (v : Option Nat) : Option Heap :=
  if a ∈ h.freedEles then none else set_value h a v

/-- The call `strcpy(data, s)` into an unreleased string block. -/
def strcpy_checked (h : Heap) (d : Nat) (s : List Nat) : Option Heap :=
  if d ∈ h.freedStrs then none else strcpy h d s

/-- The call `free(p)` on an element block that was handed out and is not yet
released. -/
def free_ele_checked (h : Heap) (a : Nat) : Option Heap :=
  if a ∈ h.freedEles ∨ h.eles.length ≤ a then none else some (free_ele h a)

/-- The call `free(p)` on a string block that was handed out and is not yet
released. -/
def free_str_checked (h : Heap) (v : Nat) : Option Heap :=
  if v ∈ h.freedStrs ∨ h.strs.length ≤ v then none else some (free_str h v)

/-- The function `q_insert_head`, with checked accesses. -/
def q_insert_head_checked (h : Heap) (q : Option queue_t) (s : Option (List Nat))
    (okNode okStr : Bool) : Option Result :=
  match q with
  | none => some ⟨false, h, none⟩
  | some q =>
    match malloc_ele h okNode with
    | (_, none) => some ⟨false, h, some q⟩
    | (h1, some newNode) =>
      match s with
      | none => none
      | some s =>
        match malloc_str h1 (strlen s + 1) okStr with
        | (_, none) => (free_ele_checked h1 newNode).map fun h2 => ⟨false, h2, some q⟩
        | (h2, some data) =>
          (strcpy_checked h2 data s).bind fun h3 =>
          (set_value_checked h3 newNode (some data)).bind fun h4 =>
          if q.head = none then
            (set_next_checked h4 newNode none).bind fun h5 =>
            some ⟨true, h5, some { head := some newNode, tail := some newNode,
                                   size := q.size + 1 }⟩
          else
            (set_next_checked h4 newNode q.head).bind fun h5 =>
            some ⟨true, h5, some { head := some newNode, tail := q.tail,
                                   size := q.size + 1 }⟩

/-- The function `q_insert_tail`, with checked accesses. -/
def q_insert_tail_checked (h : Heap) (q : Option queue_t) (s : Option (List Nat))
    (okNode okStr : Bool) : Option Result :=
  match q, s with
  | none, _ => some ⟨false, h, none⟩
  | some q, none => some ⟨false, h, some q⟩
  | some q, some s =>
    match malloc_ele h okNode with
    | (_, none) => some ⟨false, h, some q⟩
    | (h1, some newNode) =>
      match malloc_str h1 (strlen s + 1) okStr with
      | (_, none) => (free_ele_checked h1 newNode).map fun h2 => ⟨false, h2, some q⟩
      | (h2, some data) =>
        (strcpy_checked h2 data s).bind fun h3 =>
        (set_value_checked h3 newNode (some data)).bind fun h4 =>
        (match q.tail with
          | none => some (h4, some newNode)
          | some t => (set_next_checked h4 t (some newNode)).map fun h5 => (h5, q.head)).bind
        fun (h5, head1) =>
        (set_next_checked h5 newNode none).bind fun h6 =>
        some ⟨true, h6, some { head := head1, tail := some newNode, size := q.size + 1 }⟩

/-- The function `q_remove_head`, with checked accesses. -/
def q_remove_head_checked (h : Heap) (q : Option queue_t) (sp : Option (List Nat))
    (bufsize : Nat) : Option RemoveResult :=
  match q with
  | none => some ⟨false, h, none, sp⟩
  | some q =>
    match q.head with
    | none => some ⟨false, h, some q, sp⟩
    | some hd =>
      (load_ele h hd).bind fun e =>
      (match sp with
        | none => some none
        | some buf =>
          e.value.bind fun v =>
          (load_str h v).bind fun b =>
          (strncpy buf b (size_sub bufsize 1)).bind fun buf1 =>
          (store buf1 (size_sub bufsize 1) 0).map some).bind
      fun sp1 =>
      (match e.value with
        | none => some h
        | some v => free_str_checked h v).bind
      fun h1 =>
      (free_ele_checked h1 hd).map fun h2 =>
        ⟨true, h2, some { head := e.next, tail := q.tail, size := q.size - 1 }, sp1⟩

/-- The loop of `q_reverse`, with checked accesses. -/
def q_reverse_loop_checked :
    Nat → Heap → Option Nat → Option Nat → Option (Heap × Option Nat)
  | _, h, none, prevNode => some (h, prevNode)
  | 0, _, some _, _ => none
  | fuel + 1, h, some t, prevNode =>
    (load_ele h t).bind fun e =>
    (set_next_checked h t prevNode).bind fun h1 =>
    q_reverse_loop_checked fuel h1 e.next (some t)

/-- The function `q_reverse`, with checked accesses. -/
def q_reverse_checked (h : Heap) (q : Option queue_t) : Option (Heap × Option queue_t) :=
  match q with
  | none => some (h, none)
  | some q =>
    match q.head with
    | none => some (h, some q)
    | some hd =>
      (load_ele h hd).bind fun e =>
      (set_next_checked h hd none).bind fun h1 =>
      (q_reverse_loop_checked (2 * h.eles.length) h1 e.next (some hd)).bind
      fun (h2, prevNode) =>
      some (h2, some { head := prevNode, tail := q.head, size := q.size })

/-- One call, with checked accesses. -/
def step_checked (r : Run) : Op → Option Run
  | .insert_head s okNode okStr =>
    (q_insert_head_checked r.heap r.q s okNode okStr).map fun x =>
      { heap := x.heap, q := x.q, inserted := r.inserted + (if x.ret then 1 else 0),
        removed := r.removed }
  | .insert_tail s okNode okStr =>
    (q_insert_tail_checked r.heap r.q s okNode okStr).map fun x =>
      { heap := x.heap, q := x.q, inserted := r.inserted + (if x.ret then 1 else 0),
        removed := r.removed }
  | .remove_head sp bufsize =>
    (q_remove_head_checked r.heap r.q sp bufsize).map fun x =>
      { heap := x.heap, q := x.q, inserted := r.inserted,
        removed := r.removed + (if x.ret then 1 else 0) }
  | .reverse =>
    (q_reverse_checked r.heap r.q).map fun x =>
      { heap := x.1, q := x.2, inserted := r.inserted, removed := r.removed }

/-- A sequence of calls with checked accesses: `none` as soon as one call has no
defined outcome. -/
def run_checked (r : Run) : List Op → Option Run
  | [] => some r
  | op :: ops => (step_checked r op).bind fun r1 => run_checked r1 ops

/-- Whether a call is a `q_insert_tail` that reaches `q->tail->next = newNode`
(a queue, a string, both allocations succeeding) while `tail` points to a
released element. -/
def staleTailStore (r : Run) : Op → Bool
  | .insert_tail (some _) true true =>
    match r.q with
    | none => false
    | some q =>
      match q.tail with
      | none => false
      | some t => decide (t ∈ r.heap.freedEles)
  | _ => false

/-- No call of the run stores through a stale `tail`. -/
def noStaleStore : Run → List Op → Bool
  | _, [] => true
  | r, op :: ops =>
    !staleTailStore r op &&
      match step_checked r op with
      | none => true
      | some r1 => noStaleStore r1 ops

/-- The calls of `q_insert_head`, all allocations succeeding, that insert `n`
copies of the string `s`. -/
def insertHeads (n : Nat) (s : List Nat) : List Op :=
  (List.replicate n s).map fun x => Op.insert_head (some x) true true

/-! ## Chains -/

theorem lt_of_getElem?_eq_some {α : Type} {l : List α} {a : Nat} {x : α}
    (h : l[a]? = some x) : a < l.length := by
  rcases Nat.lt_or_ge a l.length with h1 | h1
  · exact h1
  · rw [List.getElem?_eq_none h1] at h; cases h

theorem isChain_nil {h : Heap} {p : Option Nat} : IsChain h p [] ↔ p = none := by
  simp [IsChain]

theorem isChain_cons {h : Heap} {p : Option Nat} {a : Nat} {l : List Nat} :
    IsChain h p (a :: l) ↔ p = some a ∧ ∃ e, h.eles[a]? = some e ∧ IsChain h e.next l := by
  simp [IsChain]

theorem isChain_functional {h : Heap} {l₁ : List Nat} :
    ∀ {p : Option Nat} {l₂ : List Nat}, IsChain h p l₁ → IsChain h p l₂ → l₁ = l₂ := by
  induction l₁ with
  | nil =>
    intro p l₂ h1 h2
    cases l₂ with
    | nil => rfl
    | cons b l₂ =>
      rw [isChain_nil] at h1
      rw [isChain_cons] at h2
      rw [h1] at h2
      cases h2.1
  | cons a l₁ ih =>
    intro p l₂ h1 h2
    rw [isChain_cons] at h1
    obtain ⟨hp, e, he, hl⟩ := h1
    cases l₂ with
    | nil =>
      rw [isChain_nil] at h2
      rw [h2] at hp
      cases hp
    | cons b l₂ =>
      rw [isChain_cons] at h2
      obtain ⟨hp2, e2, he2, hl2⟩ := h2
      rw [hp] at hp2
      cases hp2
      rw [he] at he2
      cases he2
      rw [ih hl hl2]

theorem isChain_lt {h : Heap} {l : List Nat} :
    ∀ {p : Option Nat}, IsChain h p l → ∀ a ∈ l, a < h.eles.length := by
  induction l with
  | nil => intro p _ a ha; cases ha
  | cons b l ih =>
    intro p hc a ha
    rw [isChain_cons] at hc
    obtain ⟨_, e, he, hl⟩ := hc
    rcases List.mem_cons.mp ha with rfl | ha
    · exact lt_of_getElem?_eq_some he
    · exact ih hl a ha

theorem isChain_suffix {h : Heap} {l₁ : List Nat} {a : Nat} {l₂ : List Nat} :
    ∀ {p : Option Nat}, IsChain h p (l₁ ++ a :: l₂) → IsChain h (some a) (a :: l₂) := by
  induction l₁ with
  | nil =>
    intro p hc
    have hc2 := hc
    simp only [List.nil_append] at hc2
    rw [isChain_cons] at hc2 ⊢
    exact ⟨rfl, hc2.2⟩
  | cons b l₁ ih =>
    intro p hc
    simp only [List.cons_append] at hc
    rw [isChain_cons] at hc
    obtain ⟨_, e, _, hl⟩ := hc
    exact ih hl

theorem isChain_nodup {h : Heap} {l : List Nat} :
    ∀ {p : Option Nat}, IsChain h p l → l.Nodup := by
  induction l with
  | nil => intro p _; exact List.nodup_nil
  | cons a l ih =>
    intro p hc
    have hc0 := hc
    rw [isChain_cons] at hc
    obtain ⟨hp, e, he, hl⟩ := hc
    refine List.nodup_cons.mpr ⟨?_, ih hl⟩
    intro hmem
    obtain ⟨l₁, l₂, hsplit⟩ := List.append_of_mem hmem
    rw [hsplit] at hl
    have h1 := isChain_suffix hl
    rw [hp] at hc0
    have h2 := isChain_functional h1 hc0
    have h3 : l₂ = l := by simpa using h2
    have h4 := congrArg List.length hsplit
    rw [h3] at h4
    simp at h4
    omega

theorem isChain_length_le {h : Heap} {l : List Nat} {p : Option Nat} (hc : IsChain h p l) :
    l.length ≤ h.eles.length := by
  have hnd := isChain_nodup hc
  have hlt := isChain_lt hc
  have hsub : l.toFinset ⊆ Finset.range h.eles.length := by
    intro a ha
    rw [List.mem_toFinset] at ha
    exact Finset.mem_range.mpr (hlt a ha)
  have hcard := Finset.card_le_card hsub
  rw [List.toFinset_card_of_nodup hnd, Finset.card_range] at hcard
  exact hcard

theorem chainFrom_eq_some_iff {h : Heap} {l : List Nat} :
    ∀ {n : Nat} {p : Option Nat}, chainFrom h n p = some l ↔ IsChain h p l ∧ l.length ≤ n := by
  induction l with
  | nil =>
    intro n p
    cases p with
    | none => cases n <;> simp [chainFrom, IsChain]
    | some a =>
      cases n with
      | zero => simp [chainFrom, IsChain]
      | succ n =>
        simp only [chainFrom, isChain_nil]
        cases h.eles[a]? with
        | none => simp
        | some e => cases chainFrom h n e.next <;> simp
  | cons b l ih =>
    intro n p
    cases p with
    | none => cases n <;> simp [chainFrom, IsChain]
    | some a =>
      cases n with
      | zero => simp [chainFrom]
      | succ n =>
        simp only [chainFrom, isChain_cons]
        constructor
        · intro hcf
          cases hea : h.eles[a]? with
          | none => rw [hea] at hcf; cases hcf
          | some e =>
            rw [hea] at hcf
            simp only [Option.some_bind, Option.map_eq_some', List.cons.injEq] at hcf
            obtain ⟨l', hl', hab, hll⟩ := hcf
            subst hab hll
            have := ih.mp hl'
            exact ⟨⟨rfl, e, hea, this.1⟩, Nat.succ_le_succ this.2⟩
        · rintro ⟨⟨hab, e', he', hc⟩, hlen⟩
          cases hab
          rw [he']
          simp only [Option.some_bind, Option.map_eq_some', List.cons.injEq]
          exact ⟨l, ih.mpr ⟨hc, Nat.le_of_succ_le_succ hlen⟩, trivial, rfl⟩

theorem chain_eq_some_iff {h : Heap} {l : List Nat} {p : Option Nat} :
    chain h p = some l ↔ IsChain h p l := by
  unfold chain
  rw [chainFrom_eq_some_iff]
  exact ⟨fun hc => hc.1, fun hc => ⟨hc, isChain_length_le hc⟩⟩

theorem isChain_congr {h h' : Heap} {l : List Nat}
    (hc : ∀ a ∈ l, (h'.eles[a]?).map (fun e => e.next) = (h.eles[a]?).map (fun e => e.next)) :
    ∀ {p : Option Nat}, IsChain h p l → IsChain h' p l := by
  induction l with
  | nil => intro p hp; exact hp
  | cons b l ih =>
    intro p hp
    rw [isChain_cons] at hp ⊢
    obtain ⟨hpb, e, he, hl⟩ := hp
    have hb := hc b (List.mem_cons_self b l)
    rw [he] at hb
    simp only [Option.map_some', Option.map_eq_some'] at hb
    obtain ⟨e', he', hn⟩ := hb
    refine ⟨hpb, e', he', ?_⟩
    rw [hn]
    exact ih (fun a ha => hc a (List.mem_cons_of_mem b ha)) hl

/-! ## What each call computes -/

theorem strcpy_fresh (es : List list_ele_t) (ss : List (List Nat)) (fe fs : List Nat)
    (s : List Nat) :
    strcpy ⟨es, ss ++ [List.replicate (strlen s + 1) 0], fe, fs⟩ ss.length s
      = some ⟨es, ss ++ [cstr s ++ [0]], fe, fs⟩ := by
  simp [strcpy, List.set_append]

theorem q_insert_head_eq (h : Heap) (q : queue_t) (s : List Nat) :
    q_insert_head h (some q) (some s) true true =
      some ⟨true,
        ⟨h.eles ++ [⟨some h.strs.length, q.head⟩], h.strs ++ [cstr s ++ [0]],
          h.freedEles, h.freedStrs⟩,
        some { head := some h.eles.length,
               tail := if q.head = none then some h.eles.length else q.tail,
               size := q.size + 1 }⟩ := by
  simp only [q_insert_head, malloc_ele, malloc_str, if_true]
  rw [strcpy_fresh]
  by_cases hq : q.head = none <;> simp [set_value, set_next, hq, List.set_append]

theorem q_insert_tail_eq_none (h : Heap) (q : queue_t) (s : List Nat) (ht : q.tail = none) :
    q_insert_tail h (some q) (some s) true true =
      some ⟨true,
        ⟨h.eles ++ [⟨some h.strs.length, none⟩], h.strs ++ [cstr s ++ [0]],
          h.freedEles, h.freedStrs⟩,
        some { head := some h.eles.length, tail := some h.eles.length, size := q.size + 1 }⟩ := by
  simp only [q_insert_tail, malloc_ele, malloc_str, if_true]
  rw [strcpy_fresh]
  simp [set_value, set_next, ht, List.set_append]

theorem q_insert_tail_eq_some (h : Heap) (q : queue_t) (s : List Nat) (t : Nat)
    (e : list_ele_t) (ht : q.tail = some t) (he : h.eles[t]? = some e) :
    q_insert_tail h (some q) (some s) true true =
      some ⟨true,
        ⟨h.eles.set t { e with next := some h.eles.length } ++ [⟨some h.strs.length, none⟩],
          h.strs ++ [cstr s ++ [0]], h.freedEles, h.freedStrs⟩,
        some { head := q.head, tail := some h.eles.length, size := q.size + 1 }⟩ := by
  have hlt : t < h.eles.length := lt_of_getElem?_eq_some he
  simp only [q_insert_tail, malloc_ele, malloc_str, if_true]
  rw [strcpy_fresh]
  simp [set_value, set_next, ht, List.set_append, List.getElem?_append, hlt, he,
    Nat.ne_of_lt hlt]

/-- An insertion whose first allocation fails returns `false` and changes nothing. -/
theorem q_insert_head_eq_noNode (h : Heap) (q : queue_t) (s : Option (List Nat)) (okStr : Bool) :
    q_insert_head h (some q) s false okStr = some ⟨false, h, some q⟩ := by
  simp [q_insert_head, malloc_ele]

theorem q_insert_head_eq_noStr (h : Heap) (q : queue_t) (s : List Nat) :
    q_insert_head h (some q) (some s) true false =
      some ⟨false, ⟨h.eles ++ [⟨none, none⟩], h.strs, h.freedEles ++ [h.eles.length],
        h.freedStrs⟩, some q⟩ := by
  simp [q_insert_head, malloc_ele, malloc_str, free_ele]

theorem q_insert_tail_eq_noNode (h : Heap) (q : queue_t) (s : List Nat) (okStr : Bool) :
    q_insert_tail h (some q) (some s) false okStr = some ⟨false, h, some q⟩ := by
  simp [q_insert_tail, malloc_ele]

theorem q_insert_tail_eq_noStr (h : Heap) (q : queue_t) (s : List Nat) :
    q_insert_tail h (some q) (some s) true false =
      some ⟨false, ⟨h.eles ++ [⟨none, none⟩], h.strs, h.freedEles ++ [h.eles.length],
        h.freedStrs⟩, some q⟩ := by
  simp [q_insert_tail, malloc_ele, malloc_str, free_ele]

theorem size_sub_one {n : Nat} (h1 : 1 ≤ n) : size_sub n 1 = n - 1 := by
  unfold size_sub
  rw [if_pos h1]

/-- On `size_t` values `size_sub` is subtraction modulo `2 ^ 64`. -/
theorem size_sub_eq_mod {a b : Nat} (ha : a < 2 ^ 64) (hb : b < 2 ^ 64) :
    size_sub a b = (a + 2 ^ 64 - b) % 2 ^ 64 := by
  unfold size_sub
  by_cases h : b ≤ a
  · rw [if_pos h]
    have : a + 2 ^ 64 - b = (a - b) + 2 ^ 64 := by omega
    rw [this, Nat.add_mod_right, Nat.mod_eq_of_lt (by omega)]
  · rw [if_neg h, Nat.mod_eq_of_lt (by omega)]

/-- The bytes that a call with a buffer of capacity `bufsize` leaves in the buffer,
for the string block `b` of the removed element. -/
theorem remove_buffer_eq (buf b : List Nat) (bufsize : Nat) (h1 : 1 ≤ bufsize)
    (h2 : bufsize ≤ buf.length) :
    (strncpy buf b (size_sub bufsize 1)).bind (fun buf1 => store buf1 (size_sub bufsize 1) 0)
      = some ((cstr b).take (bufsize - 1) ++ List.replicate (bufsize - 1 - strlen b) 0
          ++ 0 :: buf.drop bufsize) := by
  rw [size_sub_one h1]
  have hle : bufsize - 1 ≤ buf.length := by omega
  have hlen : ((cstr b).take (bufsize - 1) ++ List.replicate (bufsize - 1 - strlen b) 0).length
      = bufsize - 1 := by
    simp only [List.length_append, List.length_take, List.length_replicate, strlen]
    omega
  obtain ⟨c, rest, hdrop⟩ : ∃ c rest, buf.drop (bufsize - 1) = c :: rest := by
    cases hd : buf.drop (bufsize - 1) with
    | nil =>
      have := congrArg List.length hd
      simp at this
      omega
    | cons c rest => exact ⟨c, rest, rfl⟩
  have hrest : buf.drop bufsize = rest := by
    have : bufsize = (bufsize - 1) + 1 := by omega
    rw [this, ← List.drop_drop, hdrop]
    simp
  simp only [strncpy, hle, if_true, Option.some_bind, store, hdrop, hrest]
  rw [if_pos (by simp only [List.length_append, hlen, List.length_cons]; omega)]
  congr 1
  rw [List.set_append_right _ _ (by rw [hlen])]
  rw [hlen]
  simp

/-- The bytes a successful `q_remove_head` leaves in a buffer `buf` of capacity
`bufsize`, for the string block `b` of the removed element. -/
theorem q_remove_head_eq (h : Heap) (q : queue_t) (sp : Option (List Nat)) (bufsize : Nat)
    (a : Nat) (e : list_ele_t) (v : Nat) (b : List Nat)
    (hhead : q.head = some a) (he : h.eles[a]? = some e) (hv : e.value = some v)
    (hb : h.strs[v]? = some b) (hbuf : BufferOk sp bufsize) :
    q_remove_head h (some q) sp bufsize =
      some ⟨true, ⟨h.eles, h.strs, h.freedEles ++ [a], h.freedStrs ++ [v]⟩,
        some { head := e.next, tail := q.tail, size := q.size - 1 },
        sp.map fun buf => (cstr b).take (bufsize - 1)
          ++ List.replicate (bufsize - 1 - strlen b) 0 ++ 0 :: buf.drop bufsize⟩ := by
  cases sp with
  | none => simp [q_remove_head, hhead, he, hv, free_ele, free_str]
  | some buf =>
    obtain ⟨h1, h2, _⟩ := hbuf buf rfl
    have hcopy := remove_buffer_eq buf b bufsize h1 h2
    simp only [q_remove_head, hhead, he, hv, hb, Option.some_bind, free_ele, free_str]
    cases hs : strncpy buf b (size_sub bufsize 1) with
    | none => rw [hs] at hcopy; cases hcopy
    | some buf1 =>
      rw [hs] at hcopy
      simp only [Option.some_bind] at hcopy
      simp [hcopy]

theorem cstr_append_zero (x rest : List Nat) (hx : ∀ c ∈ x, c ≠ 0) :
    cstr (x ++ 0 :: rest) = x := by
  unfold cstr
  induction x with
  | nil => simp [List.takeWhile]
  | cons c x ih =>
    have hc : c ≠ 0 := hx c (List.mem_cons_self c x)
    simp only [List.cons_append, List.takeWhile_cons, ne_eq, hc, not_false_eq_true,
      decide_True, if_true, List.cons.injEq, true_and]
    exact ih (fun d hd => hx d (List.mem_cons_of_mem c hd))

theorem cstr_ne_zero (s : List Nat) : ∀ c ∈ cstr s, c ≠ 0 := by
  intro c hc
  have := List.mem_takeWhile_imp hc
  simpa using this

theorem cstr_cstr_append_zero (s rest : List Nat) : cstr (cstr s ++ 0 :: rest) = cstr s :=
  cstr_append_zero (cstr s) rest (cstr_ne_zero s)

theorem cstr_idem (s : List Nat) : cstr (cstr s) = cstr s := by
  unfold cstr
  rw [List.takeWhile_idem]

/-- The string left in the buffer is the removed string when the capacity exceeds its length. -/
theorem cstr_remove_buffer (b rest : List Nat) (bufsize : Nat) (hfit : strlen b < bufsize) :
    cstr ((cstr b).take (bufsize - 1) ++ List.replicate (bufsize - 1 - strlen b) 0
      ++ 0 :: rest) = cstr b := by
  have htake : (cstr b).take (bufsize - 1) = cstr b := by
    apply List.take_of_length_le
    unfold strlen at hfit
    omega
  rw [htake]
  cases hn : bufsize - 1 - strlen b with
  | zero => simpa using cstr_cstr_append_zero b rest
  | succ n =>
    rw [List.replicate_succ, List.append_assoc]
    exact cstr_cstr_append_zero b _

/-! ## Frame lemmas -/

theorem payloads_congr {h h' : Heap} {l : List Nat}
    (hp : ∀ a ∈ l, payload h' a = payload h a) : payloads h' l = payloads h l := by
  induction l with
  | nil => rfl
  | cons a l ih =>
    simp only [payloads]
    rw [hp a (List.mem_cons_self a l), ih (fun b hb => hp b (List.mem_cons_of_mem a hb))]

theorem payloads_append (h : Heap) (l₁ l₂ : List Nat) :
    payloads h (l₁ ++ l₂) =
      (payloads h l₁).bind fun p₁ => (payloads h l₂).map fun p₂ => p₁ ++ p₂ := by
  induction l₁ with
  | nil => simp [payloads]
  | cons a l₁ ih =>
    rw [List.cons_append, payloads, ih, payloads]
    cases payload h a with
    | none => rfl
    | some p =>
      cases payloads h l₁ with
      | none => rfl
      | some p₁ =>
        cases payloads h l₂ with
        | none => rfl
        | some p₂ => rfl

/-- Replacing the part of a chain after the element `t`. -/
theorem isChain_splice {h h' : Heap} {l₀ : List Nat} {t : Nat} {l₁ l₂ : List Nat}
    (hc : ∀ a ∈ l₀, (h'.eles[a]?).map (fun e => e.next) = (h.eles[a]?).map (fun e => e.next))
    (ht : ∃ e, h'.eles[t]? = some e ∧ IsChain h' e.next l₂) :
    ∀ {p : Option Nat}, IsChain h p (l₀ ++ t :: l₁) → IsChain h' p (l₀ ++ t :: l₂) := by
  induction l₀ with
  | nil =>
    intro p hp
    simp only [List.nil_append] at hp ⊢
    rw [isChain_cons] at hp ⊢
    exact ⟨hp.1, ht⟩
  | cons b l₀ ih =>
    intro p hp
    simp only [List.cons_append] at hp ⊢
    rw [isChain_cons] at hp ⊢
    obtain ⟨hpb, e, he, hl⟩ := hp
    have hb := hc b (List.mem_cons_self b l₀)
    rw [he] at hb
    simp only [Option.map_some', Option.map_eq_some'] at hb
    obtain ⟨e', he', hn⟩ := hb
    refine ⟨hpb, e', he', ?_⟩
    rw [hn]
    exact ih (fun a ha => hc a (List.mem_cons_of_mem b ha)) hl

theorem invAt_isChain {h : Heap} {q : queue_t} {l : List Nat} (hi : InvAt h q l) :
    IsChain h q.head l :=
  chain_eq_some_iff.mp hi.chain

theorem invAt_lt {h : Heap} {q : queue_t} {l : List Nat} (hi : InvAt h q l) :
    ∀ a ∈ l, a < h.eles.length :=
  isChain_lt (invAt_isChain hi)

theorem invAt_head_nil {h : Heap} {q : queue_t} (hi : InvAt h q []) : q.head = none :=
  isChain_nil.mp (invAt_isChain hi)

theorem invAt_head_cons {h : Heap} {q : queue_t} {a : Nat} {l : List Nat}
    (hi : InvAt h q (a :: l)) : q.head = some a :=
  (isChain_cons.mp (invAt_isChain hi)).1

theorem invAt_unique {h : Heap} {q : queue_t} {l₁ l₂ : List Nat} (h1 : InvAt h q l₁)
    (h2 : InvAt h q l₂) : l₁ = l₂ :=
  isChain_functional (invAt_isChain h1) (invAt_isChain h2)

/-- Under the invariant every element of the chain has a payload. -/
theorem invAt_payloads {h : Heap} {q : queue_t} {l : List Nat} (hi : InvAt h q l) :
    ∃ ps, payloads h l = some ps ∧ ps.length = l.length := by
  have hv := hi.value
  clear hi
  induction l with
  | nil => exact ⟨[], rfl, rfl⟩
  | cons a l ih =>
    obtain ⟨ps, hps, hlen⟩ := ih (fun b hb => hv b (List.mem_cons_of_mem a hb))
    obtain ⟨v, hva, hvlt, _⟩ := hv a (List.mem_cons_self a l)
    obtain ⟨b, hb⟩ : ∃ b, h.strs[v]? = some b := by
      rw [List.getElem?_eq_getElem hvlt]
      exact ⟨_, rfl⟩
    refine ⟨cstr b :: ps, ?_, by simp [hlen]⟩
    simp [payloads, payload, hva, hb, hps]

theorem contents_eq {h : Heap} {q : queue_t} {l : List Nat} (hi : InvAt h q l) :
    contents h q = payloads h l := by
  simp [contents, hi.chain]

/-! ## The invariant under each call -/

theorem valueOf_congr {h h' : Heap} {a : Nat} (he : h'.eles[a]? = h.eles[a]?) :
    valueOf h' a = valueOf h a := by
  simp [valueOf, he]

theorem payload_congr {h h' : Heap} {a v : Nat} (hv : valueOf h a = some v)
    (hv' : valueOf h' a = some v) (hs : h'.strs[v]? = h.strs[v]?) :
    payload h' a = payload h a := by
  simp [payload, hv, hv', hs]

theorem map_valueOf_congr {h h' : Heap} {l : List Nat}
    (hv : ∀ a ∈ l, valueOf h' a = valueOf h a) : l.map (valueOf h') = l.map (valueOf h) :=
  List.map_congr_left hv

/-- The invariant carries over to a heap that keeps the `next` and `value` of the
elements of the chain, the string blocks, and releases none of them. -/
theorem invAt_frame {h h' : Heap} {q q' : queue_t} {l : List Nat} (hi : InvAt h q l)
    (hheap : HeapOk h') (hhead : q'.head = q.head)
    (hnext : ∀ a ∈ l, (h'.eles[a]?).map (fun e => e.next) = (h.eles[a]?).map (fun e => e.next))
    (hval : ∀ a ∈ l, valueOf h' a = valueOf h a)
    (hsize : (l.length : Int) ≤ q'.size)
    (htail : l ≠ [] → q'.tail = l.getLast?)
    (htv : ∀ t, q'.tail = some t → t < h'.eles.length)
    (hfe : ∀ a ∈ l, a ∉ h'.freedEles)
    (hstr : h.strs.length ≤ h'.strs.length)
    (hfs : ∀ v, v < h.strs.length → v ∉ h.freedStrs → v ∉ h'.freedStrs) :
    InvAt h' q' l where
  heap := hheap
  chain := by
    rw [chain_eq_some_iff, hhead]
    exact isChain_congr hnext (invAt_isChain hi)
  size := hsize
  tail := htail
  tailValid := htv
  live := hfe
  value := by
    intro a ha
    obtain ⟨v, hv, hlt, hnf⟩ := hi.value a ha
    exact ⟨v, by rw [hval a ha, hv], Nat.lt_of_lt_of_le hlt hstr, hfs v hlt hnf⟩
  owned := by
    rw [map_valueOf_congr hval]
    exact hi.owned

theorem payloads_frame {h h' : Heap} {q : queue_t} {l : List Nat} (hi : InvAt h q l)
    (hval : ∀ a ∈ l, valueOf h' a = valueOf h a)
    (hstr : ∀ v, v < h.strs.length → h'.strs[v]? = h.strs[v]?) :
    payloads h' l = payloads h l := by
  apply payloads_congr
  intro a ha
  obtain ⟨v, hv, hlt, _⟩ := hi.value a ha
  exact payload_congr hv (by rw [hval a ha, hv]) (hstr v hlt)

/-- The heap and the queue after a successful `q_insert_head`. -/
theorem invAt_insert_head {h : Heap} {q : queue_t} {l : List Nat} (hi : InvAt h q l)
    (s : List Nat) :
    InvAt ⟨h.eles ++ [⟨some h.strs.length, q.head⟩], h.strs ++ [cstr s ++ [0]],
        h.freedEles, h.freedStrs⟩
      { head := some h.eles.length,
        tail := if q.head = none then some h.eles.length else q.tail,
        size := q.size + 1 }
      (h.eles.length :: l) ∧
    payloads ⟨h.eles ++ [⟨some h.strs.length, q.head⟩], h.strs ++ [cstr s ++ [0]],
        h.freedEles, h.freedStrs⟩ (h.eles.length :: l)
      = (payloads h l).map fun ps => cstr s :: ps := by
  have hlt := invAt_lt hi
  have heles : ∀ a ∈ l, (h.eles ++ [(⟨some h.strs.length, q.head⟩ : list_ele_t)])[a]?
      = h.eles[a]? := fun a ha => List.getElem?_append_left (hlt a ha)
  have hold : InvAt ⟨h.eles ++ [⟨some h.strs.length, q.head⟩], h.strs ++ [cstr s ++ [0]],
      h.freedEles, h.freedStrs⟩ q l := by
    apply invAt_frame hi
    · exact ⟨fun a ha => by simp; have := hi.heap.1 a ha; omega,
        fun v hv => by simp; have := hi.heap.2 v hv; omega⟩
    · rfl
    · intro a ha; simp only [heles a ha]
    · intro a ha; exact valueOf_congr (heles a ha)
    · exact hi.size
    · exact hi.tail
    · intro t ht; have := hi.tailValid t ht; simp; omega
    · exact hi.live
    · simp
    · intro v _ hv; exact hv
  have hnew : valueOf ⟨h.eles ++ [⟨some h.strs.length, q.head⟩], h.strs ++ [cstr s ++ [0]],
      h.freedEles, h.freedStrs⟩ h.eles.length = some h.strs.length := by
    simp [valueOf]
  constructor
  · refine
      { heap := hold.heap
        chain := ?_
        size := ?_
        tail := ?_
        tailValid := ?_
        live := ?_
        value := ?_
        owned := ?_ }
    · rw [chain_eq_some_iff, isChain_cons]
      exact ⟨rfl, ⟨some h.strs.length, q.head⟩, by simp, invAt_isChain hold⟩
    · have := hi.size
      simp only [List.length_cons, Nat.cast_add, Nat.cast_one]
      omega
    · intro _
      cases l with
      | nil => simp [invAt_head_nil hi]
      | cons b l =>
        rw [List.getLast?_cons_cons, ← hi.tail (List.cons_ne_nil b l)]
        simp [invAt_head_cons hi]
    · intro t ht
      simp only [List.length_append, List.length_singleton]
      by_cases hq : q.head = none
      · simp only [hq, if_true, Option.some.injEq] at ht
        omega
      · simp only [hq, if_false] at ht
        have := hi.tailValid t ht
        omega
    · intro a ha
      rcases List.mem_cons.mp ha with rfl | ha
      · intro hf
        exact Nat.lt_irrefl _ (hi.heap.1 _ hf)
      · exact hi.live a ha
    · intro a ha
      rcases List.mem_cons.mp ha with rfl | ha
      · refine ⟨h.strs.length, hnew, by simp, ?_⟩
        intro hf
        exact Nat.lt_irrefl _ (hi.heap.2 _ hf)
      · exact hold.value a ha
    · rw [List.map_cons, List.nodup_cons]
      refine ⟨?_, hold.owned⟩
      rw [hnew]
      intro hmem
      obtain ⟨a, ha, hav⟩ := List.mem_map.mp hmem
      obtain ⟨v, hv, hvlt, _⟩ := hi.value a ha
      rw [valueOf_congr (heles a ha), hv] at hav
      cases hav
      exact Nat.lt_irrefl _ hvlt
  · have hp : payloads ⟨h.eles ++ [⟨some h.strs.length, q.head⟩], h.strs ++ [cstr s ++ [0]],
        h.freedEles, h.freedStrs⟩ l = payloads h l :=
      payloads_frame hi (fun a ha => valueOf_congr (heles a ha))
        (fun v hv => List.getElem?_append_left hv)
    rw [payloads, hp]
    simp [payload, hnew, cstr_cstr_append_zero]

theorem heapOk_extend {h h' : Heap} (hh : HeapOk h) (he : h.eles.length ≤ h'.eles.length)
    (hs : h.strs.length ≤ h'.strs.length) (hfe : h'.freedEles = h.freedEles)
    (hfs : h'.freedStrs = h.freedStrs) : HeapOk h' := by
  refine ⟨fun a ha => ?_, fun v hv => ?_⟩
  · rw [hfe] at ha
    exact Nat.lt_of_lt_of_le (hh.1 a ha) he
  · rw [hfs] at hv
    exact Nat.lt_of_lt_of_le (hh.2 v hv) hs

/-- A successful `q_insert_tail` on a queue whose `tail` is `NULL`. -/
theorem invAt_insert_tail_none {h : Heap} {q : queue_t} {l : List Nat} (hi : InvAt h q l)
    (ht : q.tail = none) (s : List Nat) :
    l = [] ∧
    InvAt ⟨h.eles ++ [⟨some h.strs.length, none⟩], h.strs ++ [cstr s ++ [0]],
        h.freedEles, h.freedStrs⟩
      { head := some h.eles.length, tail := some h.eles.length, size := q.size + 1 }
      [h.eles.length] ∧
    payloads ⟨h.eles ++ [⟨some h.strs.length, none⟩], h.strs ++ [cstr s ++ [0]],
        h.freedEles, h.freedStrs⟩ [h.eles.length] = some [cstr s] := by
  have hl : l = [] := by
    by_contra hne
    have := hi.tail hne
    rw [ht] at this
    obtain ⟨a, l', rfl⟩ := List.exists_cons_of_ne_nil hne
    have h2 := List.getLast?_eq_getLast (a :: l') (List.cons_ne_nil a l')
    rw [h2] at this
    cases this
  subst hl
  have hhead := invAt_head_nil hi
  have h1 := invAt_insert_head hi s
  rw [hhead] at h1
  simp only [if_true] at h1
  refine ⟨rfl, h1.1, ?_⟩
  rw [h1.2]
  rfl

/-- A successful `q_insert_tail` through a `tail` that is the last element of the chain. -/
theorem invAt_insert_tail_some {h : Heap} {q : queue_t} {l : List Nat} (hi : InvAt h q l)
    (hne : l ≠ []) (s : List Nat) :
    ∃ t e, q.tail = some t ∧ h.eles[t]? = some e ∧
    InvAt ⟨h.eles.set t { e with next := some h.eles.length } ++ [⟨some h.strs.length, none⟩],
        h.strs ++ [cstr s ++ [0]], h.freedEles, h.freedStrs⟩
      { head := q.head, tail := some h.eles.length, size := q.size + 1 }
      (l ++ [h.eles.length]) ∧
    payloads ⟨h.eles.set t { e with next := some h.eles.length }
          ++ [⟨some h.strs.length, none⟩],
        h.strs ++ [cstr s ++ [0]], h.freedEles, h.freedStrs⟩ (l ++ [h.eles.length])
      = (payloads h l).map fun ps => ps ++ [cstr s] := by
  have hlt := invAt_lt hi
  have hchain := invAt_isChain hi
  have hnd := isChain_nodup hchain
  obtain ⟨t, htl⟩ : ∃ t, l.getLast? = some t := by
    obtain ⟨a, l', rfl⟩ := List.exists_cons_of_ne_nil hne
    exact ⟨_, List.getLast?_eq_getLast (a :: l') (List.cons_ne_nil a l')⟩
  obtain ⟨l₀, rfl⟩ := List.getLast?_eq_some_iff.mp htl
  have htail : q.tail = some t := by rw [hi.tail hne, htl]
  have htlt : t < h.eles.length := hlt t (by simp)
  obtain ⟨e, he⟩ : ∃ e, h.eles[t]? = some e := ⟨_, List.getElem?_eq_getElem htlt⟩
  have htn : t ∉ l₀ := by
    intro hmem
    have := List.nodup_append.mp hnd
    exact this.2.2 hmem (List.mem_singleton_self t)
  refine ⟨t, e, htail, he, ?_⟩
  -- lookups in the new element arena
  have hlook : ∀ a, a < h.eles.length →
      (h.eles.set t { e with next := some h.eles.length }
        ++ [(⟨some h.strs.length, none⟩ : list_ele_t)])[a]?
      = if t = a then some { e with next := some h.eles.length } else h.eles[a]? := by
    intro a ha
    rw [List.getElem?_append_left (by simpa using ha), List.getElem?_set]
    by_cases hta : t = a
    · simp [hta, ha]
    · simp [hta]
  have hlooknew : (h.eles.set t { e with next := some h.eles.length }
        ++ [(⟨some h.strs.length, none⟩ : list_ele_t)])[h.eles.length]?
      = some ⟨some h.strs.length, none⟩ := by
    have : h.eles.length = (h.eles.set t { e with next := some h.eles.length }).length := by
      simp
    rw [List.getElem?_append_right (by omega)]
    simp
  have hval : ∀ a, a < h.eles.length →
      valueOf ⟨h.eles.set t { e with next := some h.eles.length }
          ++ [⟨some h.strs.length, none⟩],
        h.strs ++ [cstr s ++ [0]], h.freedEles, h.freedStrs⟩ a = valueOf h a := by
    intro a ha
    simp only [valueOf, hlook a ha]
    by_cases hta : t = a
    · subst hta; simp [he]
    · simp [hta]
  have hnew : valueOf ⟨h.eles.set t { e with next := some h.eles.length }
          ++ [⟨some h.strs.length, none⟩],
        h.strs ++ [cstr s ++ [0]], h.freedEles, h.freedStrs⟩ h.eles.length
      = some h.strs.length := by
    simp only [valueOf, hlooknew]
    rfl
  have hvall : ∀ a ∈ l₀ ++ [t],
      valueOf ⟨h.eles.set t { e with next := some h.eles.length }
          ++ [⟨some h.strs.length, none⟩],
        h.strs ++ [cstr s ++ [0]], h.freedEles, h.freedStrs⟩ a = valueOf h a :=
    fun a ha => hval a (hlt a ha)
  constructor
  · refine
      { heap := heapOk_extend hi.heap (by simp) (by simp) rfl rfl
        chain := ?_
        size := ?_
        tail := ?_
        tailValid := ?_
        live := ?_
        value := ?_
        owned := ?_ }
    · rw [chain_eq_some_iff, List.append_assoc]
      refine @isChain_splice h _ l₀ t [] [h.eles.length] ?_ ?_ _ hchain
      · intro a ha
        have hat : t ≠ a := fun hta => htn (hta ▸ ha)
        rw [hlook a (hlt a (List.mem_append_left _ ha))]
        simp [hat]
      · refine ⟨{ e with next := some h.eles.length }, ?_, ?_⟩
        · rw [hlook t htlt]; simp
        · show IsChain _ (some h.eles.length) ([h.eles.length] ++ [])
          rw [List.append_nil, isChain_cons]
          exact ⟨rfl, _, hlooknew, isChain_nil.mpr rfl⟩
    · have := hi.size
      simp only [List.length_append, List.length_singleton, Nat.cast_add, Nat.cast_one] at this ⊢
      omega
    · intro _
      simp
    · intro t' ht'
      simp only [Option.some.injEq] at ht'
      subst ht'
      simp
    · intro a ha
      rcases List.mem_append.mp ha with ha | ha
      · exact hi.live a ha
      · rw [List.mem_singleton] at ha
        subst ha
        intro hf
        exact Nat.lt_irrefl _ (hi.heap.1 _ hf)
    · intro a ha
      rcases List.mem_append.mp ha with ha | ha
      · obtain ⟨v, hv, hvlt, hvf⟩ := hi.value a ha
        refine ⟨v, by rw [hvall a ha, hv], ?_, hvf⟩
        simp only [List.length_append, List.length_singleton]
        omega
      · rw [List.mem_singleton] at ha
        subst ha
        refine ⟨h.strs.length, hnew, by simp, ?_⟩
        intro hf
        exact Nat.lt_irrefl _ (hi.heap.2 _ hf)
    · rw [List.map_append, map_valueOf_congr hvall, List.map_singleton, hnew]
      refine List.Nodup.append hi.owned (List.nodup_singleton _) ?_
      rw [List.disjoint_singleton]
      intro hmem
      obtain ⟨a, ha, hav⟩ := List.mem_map.mp hmem
      obtain ⟨v, hv, hvlt, _⟩ := hi.value a ha
      rw [hv] at hav
      cases hav
      exact Nat.lt_irrefl _ hvlt
  · rw [payloads_append, payloads_frame hi hvall (fun v hv => List.getElem?_append_left hv)]
    have : payloads ⟨h.eles.set t { e with next := some h.eles.length }
          ++ [⟨some h.strs.length, none⟩],
        h.strs ++ [cstr s ++ [0]], h.freedEles, h.freedStrs⟩ [h.eles.length]
        = some [cstr s] := by
      simp [payloads, payload, hnew, cstr_cstr_append_zero]
    rw [this]
    cases payloads h (l₀ ++ [t]) <;> rfl

/-- The heap and the queue after a successful `q_remove_head`. -/
theorem invAt_remove_head {h : Heap} {q : queue_t} {a : Nat} {l : List Nat}
    (hi : InvAt h q (a :: l)) :
    ∃ e v b, h.eles[a]? = some e ∧ e.value = some v ∧ h.strs[v]? = some b ∧
      payloads h (a :: l) = (payloads h l).map (fun ps => cstr b :: ps) ∧
      InvAt ⟨h.eles, h.strs, h.freedEles ++ [a], h.freedStrs ++ [v]⟩
        { head := e.next, tail := q.tail, size := q.size - 1 } l ∧
      payloads ⟨h.eles, h.strs, h.freedEles ++ [a], h.freedStrs ++ [v]⟩ l = payloads h l := by
  have hchain := invAt_isChain hi
  have hnd := isChain_nodup hchain
  have hlt := invAt_lt hi
  rw [isChain_cons] at hchain
  obtain ⟨_, e, he, hl⟩ := hchain
  obtain ⟨v, hv, hvlt, hvf⟩ := hi.value a (List.mem_cons_self a l)
  have hev : e.value = some v := by simpa [valueOf, he] using hv
  obtain ⟨b, hb⟩ : ∃ b, h.strs[v]? = some b := ⟨_, List.getElem?_eq_getElem hvlt⟩
  have hown := hi.owned
  rw [List.map_cons, List.nodup_cons] at hown
  have hvalueOf : ∀ x, valueOf ⟨h.eles, h.strs, h.freedEles ++ [a], h.freedStrs ++ [v]⟩ x
      = valueOf h x := fun x => rfl
  refine ⟨e, v, b, he, hev, hb, ?_, ?_, ?_⟩
  · rw [payloads]
    simp [payload, hv, hb]
  · refine
      { heap := ?_
        chain := ?_
        size := ?_
        tail := ?_
        tailValid := hi.tailValid
        live := ?_
        value := ?_
        owned := hown.2 }
    · refine ⟨fun x hx => ?_, fun x hx => ?_⟩
      · rcases List.mem_append.mp hx with hx | hx
        · exact hi.heap.1 x hx
        · rw [List.mem_singleton] at hx
          subst hx
          exact hlt x (List.mem_cons_self x l)
      · rcases List.mem_append.mp hx with hx | hx
        · exact hi.heap.2 x hx
        · rw [List.mem_singleton] at hx
          subst hx
          exact hvlt
    · rw [chain_eq_some_iff]
      have hc : IsChain (⟨h.eles, h.strs, h.freedEles ++ [a], h.freedStrs ++ [v]⟩ : Heap)
          e.next l :=
        @isChain_congr h ⟨h.eles, h.strs, h.freedEles ++ [a], h.freedStrs ++ [v]⟩ l
          (fun _ _ => rfl) _ hl
      exact hc
    · have := hi.size
      simp only [List.length_cons, Nat.cast_add, Nat.cast_one] at this
      show (l.length : Int) ≤ q.size - 1
      omega
    · intro hne
      have := hi.tail (List.cons_ne_nil a l)
      obtain ⟨b', l', rfl⟩ := List.exists_cons_of_ne_nil hne
      rw [List.getLast?_cons_cons] at this
      exact this
    · intro x hx hf
      rcases List.mem_append.mp hf with hf | hf
      · exact hi.live x (List.mem_cons_of_mem a hx) hf
      · rw [List.mem_singleton] at hf
        subst hf
        exact (List.nodup_cons.mp hnd).1 hx
    · intro x hx
      obtain ⟨w, hw, hwlt, hwf⟩ := hi.value x (List.mem_cons_of_mem a hx)
      refine ⟨w, hw, hwlt, ?_⟩
      intro hf
      rcases List.mem_append.mp hf with hf | hf
      · exact hwf hf
      · rw [List.mem_singleton] at hf
        subst hf
        apply hown.1
        rw [hv, ← hw]
        exact List.mem_map_of_mem _ hx
  · exact payloads_congr (fun _ _ => rfl)

/-! ## Reversal -/

theorem set_next_eq {h : Heap} {a : Nat} {e : list_ele_t} (he : h.eles[a]? = some e)
    (n : Option Nat) :
    set_next h a n = some ⟨h.eles.set a { e with next := n }, h.strs, h.freedEles,
      h.freedStrs⟩ := by
  simp [set_next, he]

theorem isChain_set_of_not_mem {h : Heap} {l : List Nat} {t : Nat} (x : list_ele_t)
    (ht : t ∉ l) {p : Option Nat} (hc : IsChain h p l) :
    IsChain ⟨h.eles.set t x, h.strs, h.freedEles, h.freedStrs⟩ p l := by
  refine @isChain_congr h ⟨h.eles.set t x, h.strs, h.freedEles, h.freedStrs⟩ l ?_ p hc
  intro a ha
  have hne : t ≠ a := fun hta => ht (hta ▸ ha)
  simp only [List.getElem?_set_ne hne]

theorem valueOf_set_next {h : Heap} {t : Nat} {e : list_ele_t} (he : h.eles[t]? = some e)
    (n : Option Nat) (a : Nat) :
    valueOf ⟨h.eles.set t { e with next := n }, h.strs, h.freedEles, h.freedStrs⟩ a
      = valueOf h a := by
  simp only [valueOf, List.getElem?_set]
  by_cases hta : t = a
  · subst hta
    simp [he, lt_of_getElem?_eq_some he]
  · simp [hta]

/-- The loop of `q_reverse`: from a chain `todo` still to visit and the chain `done`
already turned around, it ends with the chain `todo.reverse ++ done`, having
written nothing but the `next` fields of the elements of `todo`. -/
theorem q_reverse_loop_spec {todo : List Nat} :
    ∀ (fuel : Nat) (h : Heap) (temp prev : Option Nat) (done : List Nat),
      IsChain h temp todo → IsChain h prev done → (∀ a ∈ todo, a ∉ done) →
      todo.length ≤ fuel →
      ∃ h' p', q_reverse_loop fuel h temp prev = some (h', p') ∧
        IsChain h' p' (todo.reverse ++ done) ∧
        h'.eles.length = h.eles.length ∧ h'.strs = h.strs ∧
        h'.freedEles = h.freedEles ∧ h'.freedStrs = h.freedStrs ∧
        (∀ a, valueOf h' a = valueOf h a) ∧
        (∀ a, a ∉ todo → h'.eles[a]? = h.eles[a]?) := by
  induction todo with
  | nil =>
    intro fuel h temp prev done ht hd _ _
    rw [isChain_nil] at ht
    subst ht
    refine ⟨h, prev, ?_, hd, rfl, rfl, rfl, rfl, fun _ => rfl, fun _ _ => rfl⟩
    cases fuel <;> rfl
  | cons t todo ih =>
    intro fuel h temp prev done ht hd hdisj hfuel
    have hnd := isChain_nodup ht
    rw [isChain_cons] at ht
    obtain ⟨htemp, e, he, hrest⟩ := ht
    subst htemp
    obtain ⟨fuel, rfl⟩ : ∃ f, fuel = f + 1 := ⟨fuel - 1, by
      simp only [List.length_cons] at hfuel; omega⟩
    have htn : t ∉ todo := (List.nodup_cons.mp hnd).1
    have htd : t ∉ done := hdisj t (List.mem_cons_self t todo)
    have hrest1 := isChain_set_of_not_mem { e with next := prev } htn hrest
    have hd1 := isChain_set_of_not_mem { e with next := prev } htd hd
    have hlook : (h.eles.set t { e with next := prev })[t]? = some { e with next := prev } :=
      List.getElem?_set_self (lt_of_getElem?_eq_some he)
    have hdone1 : IsChain ⟨h.eles.set t { e with next := prev }, h.strs, h.freedEles,
        h.freedStrs⟩ (some t) (t :: done) := by
      rw [isChain_cons]
      exact ⟨rfl, _, hlook, hd1⟩
    have hdisj1 : ∀ a ∈ todo, a ∉ t :: done := by
      intro a ha hmem
      rcases List.mem_cons.mp hmem with rfl | hmem
      · exact htn ha
      · exact hdisj a (List.mem_cons_of_mem t ha) hmem
    obtain ⟨h', p', hrun, hchain, hlen, hstrs, hfe, hfs, hval, hout⟩ :=
      ih fuel _ e.next (some t) (t :: done) hrest1 hdone1 hdisj1
        (by simp only [List.length_cons] at hfuel; omega)
    refine ⟨h', p', ?_, ?_, ?_, hstrs, hfe, hfs, ?_, ?_⟩
    · simp only [q_reverse_loop, he, Option.some_bind, set_next_eq he]
      exact hrun
    · rw [List.reverse_cons, List.append_assoc]
      exact hchain
    · rw [hlen]
      simp
    · intro a
      rw [hval a, valueOf_set_next he]
    · intro a ha
      have hat : t ≠ a := fun hta => ha (hta ▸ List.mem_cons_self t todo)
      rw [hout a (fun hmem => ha (List.mem_cons_of_mem t hmem))]
      exact List.getElem?_set_ne hat

/-- The call `q_reverse` on a queue whose `head` starts the chain `a :: l`. -/
theorem q_reverse_spec {h : Heap} {q : queue_t} {a : Nat} {l : List Nat}
    (hc : IsChain h q.head (a :: l)) :
    ∃ h' p', q_reverse h (some q) = some (h', some { head := p', tail := q.head, size := q.size })
      ∧ IsChain h' p' (l.reverse ++ [a]) ∧
      h'.eles.length = h.eles.length ∧ h'.strs = h.strs ∧
      h'.freedEles = h.freedEles ∧ h'.freedStrs = h.freedStrs ∧
      (∀ x, valueOf h' x = valueOf h x) ∧
      (∀ x, x ∉ a :: l → h'.eles[x]? = h.eles[x]?) := by
  have hnd := isChain_nodup hc
  have hlenle := isChain_length_le hc
  have hc0 := hc
  rw [isChain_cons] at hc
  obtain ⟨hhead, e, he, hrest⟩ := hc
  have hal : a ∉ l := (List.nodup_cons.mp hnd).1
  have hrest1 := isChain_set_of_not_mem { e with next := none } hal hrest
  have hlook : (h.eles.set a { e with next := none })[a]? = some { e with next := none } :=
    List.getElem?_set_self (lt_of_getElem?_eq_some he)
  have hdone : IsChain ⟨h.eles.set a { e with next := none }, h.strs, h.freedEles,
      h.freedStrs⟩ (some a) [a] := by
    rw [isChain_cons]
    exact ⟨rfl, _, hlook, isChain_nil.mpr rfl⟩
  have hdisj : ∀ x ∈ l, x ∉ [a] := by
    intro x hx hmem
    rw [List.mem_singleton] at hmem
    subst hmem
    exact hal hx
  obtain ⟨h', p', hrun, hchain, hlen, hstrs, hfe, hfs, hval, hout⟩ :=
    q_reverse_loop_spec (2 * h.eles.length) _ e.next (some a) [a] hrest1 hdone hdisj
      (by simp only [List.length_cons] at hlenle; omega)
  refine ⟨h', p', ?_, hchain, ?_, hstrs, hfe, hfs, ?_, ?_⟩
  · simp only [q_reverse, hhead, he, Option.some_bind, set_next_eq he, hrun]
  · rw [hlen]
    simp
  · intro x
    rw [hval x, valueOf_set_next he]
  · intro x hx
    have hax : a ≠ x := fun hax => hx (hax ▸ List.mem_cons_self a l)
    rw [hout x (fun hmem => hx (List.mem_cons_of_mem a hmem))]
    exact List.getElem?_set_ne hax

theorem payloads_reverse (h : Heap) (l : List Nat) :
    payloads h l.reverse = (payloads h l).map List.reverse := by
  induction l with
  | nil => rfl
  | cons a l ih =>
    rw [List.reverse_cons, payloads_append, ih, payloads, payloads, payloads]
    cases payload h a with
    | none => cases payloads h l <;> rfl
    | some p =>
      cases payloads h l with
      | none => rfl
      | some ps => simp

theorem payload_of_valueOf {h h' : Heap} (hv : ∀ a, valueOf h' a = valueOf h a)
    (hs : h'.strs = h.strs) (a : Nat) : payload h' a = payload h a := by
  simp [payload, hv, hs]

/-- The invariant under `q_reverse`: the chain is turned around, `head` and `tail`
are exchanged, and nothing but `next` fields is written. -/
theorem invAt_reverse {h : Heap} {q : queue_t} {l : List Nat} (hi : InvAt h q l) :
    ∃ h' q', q_reverse h (some q) = some (h', some q') ∧ InvAt h' q' l.reverse ∧
      payloads h' l.reverse = (payloads h l).map List.reverse ∧
      q'.size = q.size ∧ (l ≠ [] → q'.head = q.tail ∧ q'.tail = q.head) ∧
      (l = [] → q' = q) ∧
      h'.eles.length = h.eles.length ∧ h'.strs = h.strs ∧
      h'.freedEles = h.freedEles ∧ h'.freedStrs = h.freedStrs ∧
      (∀ x, valueOf h' x = valueOf h x) ∧
      (∀ x, x ∉ l → h'.eles[x]? = h.eles[x]?) := by
  cases l with
  | nil =>
    have hhead := invAt_head_nil hi
    refine ⟨h, q, ?_, hi, rfl, rfl, fun hne => absurd rfl hne, fun _ => rfl, rfl, rfl, rfl,
      rfl, fun _ => rfl, fun _ _ => rfl⟩
    simp [q_reverse, hhead]
  | cons a l =>
    have hc := invAt_isChain hi
    have hhead := invAt_head_cons hi
    obtain ⟨h', p', hrun, hchain, hlen, hstrs, hfe, hfs, hval, hout⟩ := q_reverse_spec hc
    have hrev : (a :: l).reverse = l.reverse ++ [a] := List.reverse_cons a l
    have hp' : p' = q.tail := by
      rw [hi.tail (List.cons_ne_nil a l)]
      have hne : l.reverse ++ [a] ≠ [] := by simp
      obtain ⟨b, l', hbl⟩ := List.exists_cons_of_ne_nil hne
      have h1 : (a :: l).getLast? = some b := by
        rw [← List.head?_reverse, hrev, hbl]
        rfl
      rw [hbl, isChain_cons] at hchain
      rw [h1, hchain.1]
    refine ⟨h', { head := p', tail := q.head, size := q.size }, hrun, ?_, ?_, rfl,
      fun _ => ⟨hp', rfl⟩, fun hnil => absurd hnil (List.cons_ne_nil a l), hlen, hstrs, hfe, hfs,
      hval, hout⟩
    · refine
        { heap := ?_
          chain := ?_
          size := ?_
          tail := ?_
          tailValid := ?_
          live := ?_
          value := ?_
          owned := ?_ }
      · refine ⟨fun x hx => ?_, fun x hx => ?_⟩
        · rw [hfe] at hx; rw [hlen]; exact hi.heap.1 x hx
        · rw [hfs] at hx; rw [hstrs]; exact hi.heap.2 x hx
      · rw [chain_eq_some_iff, hrev]
        exact hchain
      · have := hi.size
        simp only [List.length_reverse]
        exact this
      · intro _
        rw [List.getLast?_reverse, hhead]
        rfl
      · intro t ht
        rw [hlen]
        have : q.head = some t := ht
        rw [hhead] at this
        cases this
        exact invAt_lt hi a (List.mem_cons_self a l)
      · intro x hx
        rw [hfe]
        exact hi.live x (List.mem_reverse.mp hx)
      · intro x hx
        obtain ⟨v, hv, hvlt, hvf⟩ := hi.value x (List.mem_reverse.mp hx)
        exact ⟨v, by rw [hval x, hv], by rw [hstrs]; exact hvlt, by rw [hfs]; exact hvf⟩
      · rw [map_valueOf_congr (fun x _ => hval x), List.map_reverse]
        exact List.nodup_reverse.mpr hi.owned
    · rw [payloads_congr (fun x _ => payload_of_valueOf hval hstrs x)]
      exact payloads_reverse h (a :: l)

/-! ## Well-formed queues -/

theorem isChain_head {h : Heap} {p : Option Nat} {l : List Nat} (hc : IsChain h p l) :
    p = l.head? := by
  cases l with
  | nil => exact isChain_nil.mp hc
  | cons a l => exact (isChain_cons.mp hc).1

theorem wellFormedAt_contents {h : Heap} {q : queue_t} {l : List Nat} {xs : List (List Nat)}
    (hw : WellFormedAt h q l) (hc : contents h q = some xs) :
    payloads h l = some xs ∧ xs.length = l.length := by
  rw [contents_eq hw.toInvAt] at hc
  obtain ⟨ps, hps, hlen⟩ := invAt_payloads hw.toInvAt
  rw [hps] at hc
  cases hc
  exact ⟨hps, hlen⟩

/-- The queue `c, a, b` is well formed. -/
theorem wellFormed_CAB : WellFormed heapCAB queueCAB := by
  refine ⟨[2, 0, 1], ?_⟩
  refine
    { heap := ⟨by decide, by decide⟩
      chain := by decide
      size := by decide
      tail := by decide
      tailValid := by decide
      live := by decide
      value := ?_
      owned := by decide
      size_eq := by decide
      tail_nil := by decide }
  intro a ha
  simp only [List.mem_cons, List.mem_singleton, List.not_mem_nil, or_false] at ha
  rcases ha with rfl | rfl | rfl
  · exact ⟨2, by decide, by decide, by decide⟩
  · exact ⟨0, by decide, by decide, by decide⟩
  · exact ⟨1, by decide, by decide, by decide⟩

theorem contents_CAB : contents heapCAB queueCAB = some [[99], [97], [98]] := by
  decide

/-! ## The claims -/

/-- C3. On a well-formed queue whose payload sequence is `x :: xs`, `q_remove_head`
returns `true`, the payload sequence afterwards is `xs`, the former second
element of the chain, if any, is the new head, and `size` has gone down by
exactly 1. -/
theorem q_remove_head_pops (h : Heap) (q : queue_t) (x : List Nat) (xs : List (List Nat))
    (sp : Option (List Nat)) (bufsize : Nat)
    (hwf : WellFormed h q) (hc : contents h q = some (x :: xs)) (hbuf : BufferOk sp bufsize) :
    ∃ r q' a l, q_remove_head h (some q) sp bufsize = some r ∧ r.ret = true ∧
      r.q = some q' ∧ contents r.heap q' = some xs ∧
      chain h q.head = some (a :: l) ∧ chain r.heap q'.head = some l ∧ q'.head = l.head? ∧
      q'.size = q.size - 1 := by
  obtain ⟨l, hw⟩ := hwf
  obtain ⟨hps, hlen⟩ := wellFormedAt_contents hw hc
  cases l with
  | nil => simp at hlen
  | cons a l =>
    have hi := hw.toInvAt
    obtain ⟨e, v, b, he, hv, hb, hpay, hi', hpay'⟩ := invAt_remove_head hi
    have hrun := q_remove_head_eq h q sp bufsize a e v b (invAt_head_cons hi) he hv hb hbuf
    refine ⟨_, _, a, l, hrun, rfl, rfl, ?_, hi.chain, hi'.chain, isChain_head (invAt_isChain hi'),
      rfl⟩
    rw [contents_eq hi', hpay']
    rw [hps] at hpay
    cases hl : payloads h l with
    | none => rw [hl] at hpay; cases hpay
    | some ps =>
      rw [hl] at hpay
      simp only [Option.map_some', Option.some.injEq, List.cons.injEq] at hpay
      rw [hpay.2]

/-- C3, at the queue `c, a, b`: removing the head leaves `a, b`. -/
theorem q_remove_head_pops_witness :
    ∃ r q' a l, q_remove_head heapCAB (some queueCAB) (some [7, 7, 7]) 2 = some r ∧
      r.ret = true ∧ r.q = some q' ∧ contents r.heap q' = some [[97], [98]] ∧
      chain heapCAB queueCAB.head = some (a :: l) ∧ chain r.heap q'.head = some l ∧
      q'.head = l.head? ∧ q'.size = queueCAB.size - 1 :=
  q_remove_head_pops heapCAB queueCAB [99] [[97], [98]] (some [7, 7, 7]) 2 wellFormed_CAB
    contents_CAB (by intro buf hb; cases hb; decide)

/-- C6. On a well-formed non-empty queue with payload sequence `xs`, `q_reverse`
leaves a well-formed queue whose payload sequence is `xs.reverse`, whose head
is the former tail and whose tail is the former head, with `size` unchanged;
no element or string is allocated or released, the string blocks are
untouched, and every element keeps its `value` pointer. -/
theorem q_reverse_reverses (h : Heap) (q : queue_t) (xs : List (List Nat))
    (hwf : WellFormed h q) (hc : contents h q = some xs) (hne : xs ≠ []) :
    ∃ h' q', q_reverse h (some q) = some (h', some q') ∧ WellFormed h' q' ∧
      contents h' q' = some xs.reverse ∧
      q'.head = q.tail ∧ q'.tail = q.head ∧ q'.size = q.size ∧
      h'.eles.length = h.eles.length ∧ h'.strs = h.strs ∧
      h'.freedEles = h.freedEles ∧ h'.freedStrs = h.freedStrs ∧
      ∀ a, valueOf h' a = valueOf h a := by
  obtain ⟨l, hw⟩ := hwf
  obtain ⟨hps, hlen⟩ := wellFormedAt_contents hw hc
  have hl : l ≠ [] := by
    intro hl
    subst hl
    exact hne (List.length_eq_zero.mp hlen)
  obtain ⟨h', q', hrun, hi', hpay', hsize, hht, _, hlen', hstrs, hfe, hfs, hval, _⟩ :=
    invAt_reverse hw.toInvAt
  refine ⟨h', q', hrun, ⟨l.reverse, ?_⟩, ?_, (hht hl).1, (hht hl).2, hsize, hlen', hstrs, hfe,
    hfs, hval⟩
  · exact
      { toInvAt := hi'
        size_eq := by rw [hsize, hw.size_eq]; simp
        tail_nil := fun hrev => absurd (List.reverse_eq_nil_iff.mp hrev) hl }
  · rw [contents_eq hi', hpay', hps]
    rfl

/-- C6, at the queue `c, a, b`: it becomes `b, a, c`. -/
theorem q_reverse_reverses_witness :
    ∃ h' q', q_reverse heapCAB (some queueCAB) = some (h', some q') ∧ WellFormed h' q' ∧
      contents h' q' = some [[98], [97], [99]] ∧
      q'.head = queueCAB.tail ∧ q'.tail = queueCAB.head ∧ q'.size = queueCAB.size ∧
      h'.eles.length = heapCAB.eles.length ∧ h'.strs = heapCAB.strs ∧
      h'.freedEles = heapCAB.freedEles ∧ h'.freedStrs = heapCAB.freedStrs ∧
      ∀ a, valueOf h' a = valueOf heapCAB a :=
  q_reverse_reverses heapCAB queueCAB [[99], [97], [98]] wellFormed_CAB contents_CAB (by decide)

/-- Two heaps in which the same chain starts at the same pointer agree on the
`next` of every element of the chain. -/
theorem isChain_next_eq {h h' : Heap} {l : List Nat} :
    ∀ {p : Option Nat}, IsChain h p l → IsChain h' p l →
      ∀ a ∈ l, (h'.eles[a]?).map (fun e => e.next) = (h.eles[a]?).map (fun e => e.next) := by
  induction l with
  | nil => intro p _ _ a ha; cases ha
  | cons b l ih =>
    intro p h1 h2 a ha
    rw [isChain_cons] at h1 h2
    obtain ⟨_, e, he, hl⟩ := h1
    obtain ⟨_, e', he', hl'⟩ := h2
    rcases List.mem_cons.mp ha with rfl | ha
    · rw [he, he']
      simp only [Option.map_some', Option.some.injEq]
      rw [isChain_head hl, isChain_head hl']
    · have hn : e'.next = e.next := by rw [isChain_head hl, isChain_head hl']
      rw [hn] at hl'
      exact ih hl hl' a ha

/-- Two heaps are equal when they agree on the `value` and the `next` of every
element and on everything else. -/
theorem heap_ext {h h' : Heap} (hlen : h'.eles.length = h.eles.length)
    (hval : ∀ a, valueOf h' a = valueOf h a)
    (hnext : ∀ a : Nat,
      (h'.eles[a]?).map (fun e => e.next) = (h.eles[a]?).map (fun e => e.next))
    (hstrs : h'.strs = h.strs) (hfe : h'.freedEles = h.freedEles)
    (hfs : h'.freedStrs = h.freedStrs) : h' = h := by
  have heles : h'.eles = h.eles := by
    apply List.ext_getElem?
    intro a
    have h1 := hval a
    have h2 := hnext a
    simp only [valueOf] at h1
    cases hx : h.eles[a]? with
    | none =>
      rw [hx] at h2
      simpa using h2
    | some e =>
      rw [hx] at h1 h2
      cases hy : h'.eles[a]? with
      | none => rw [hy] at h2; simp at h2
      | some e' =>
        rw [hy] at h1 h2
        simp only [Option.some_bind, Option.map_some', Option.some.injEq] at h1 h2
        cases e
        cases e'
        simp_all
  cases h
  cases h'
  simp_all

/-- C7. Reversal is its own inverse. For an absent queue, an empty queue, and a
queue whose `next` links from `head` end with `tail` at the last element, a
second `q_reverse` gives back the heap and the queue structure of before the
first: the same chain from `head`, hence the same payload sequence, and the
same `head`, `tail` and `size`. -/
theorem q_reverse_twice (h : Heap) (q : Option queue_t)
    (hq : ∀ q0, q = some q0 →
      ∃ l, chain h q0.head = some l ∧ (l ≠ [] → q0.tail = l.getLast?)) :
    ∃ h1 q1, q_reverse h q = some (h1, q1) ∧ q_reverse h1 q1 = some (h, q) := by
  cases q with
  | none => exact ⟨h, none, rfl, rfl⟩
  | some q =>
    obtain ⟨l, hchain, htail⟩ := hq q rfl
    rw [chain_eq_some_iff] at hchain
    cases l with
    | nil =>
      have hhead : q.head = none := isChain_nil.mp hchain
      have : q_reverse h (some q) = some (h, some q) := by simp [q_reverse, hhead]
      exact ⟨h, some q, this, this⟩
    | cons a l =>
      obtain ⟨h1, p1, hrun1, hc1, hlen1, hstrs1, hfe1, hfs1, hval1, hout1⟩ :=
        q_reverse_spec hchain
      have hrev : l.reverse ++ [a] = (a :: l).reverse := (List.reverse_cons a l).symm
      rw [hrev] at hc1
      obtain ⟨b, l', hbl⟩ := List.exists_cons_of_ne_nil
        (show (a :: l).reverse ≠ [] by simp)
      have hp1 : p1 = q.tail := by
        rw [htail (List.cons_ne_nil a l), ← List.head?_reverse, isChain_head hc1]
      have hc1' : IsChain h1 ({ head := p1, tail := q.head, size := q.size } : queue_t).head
          (b :: l') := by
        rw [← hbl]
        exact hc1
      obtain ⟨h2, p2, hrun2, hc2, hlen2, hstrs2, hfe2, hfs2, hval2, hout2⟩ :=
        q_reverse_spec hc1'
      have hback : l'.reverse ++ [b] = a :: l := by
        rw [← List.reverse_cons, ← hbl, List.reverse_reverse]
      rw [hback] at hc2
      have hp2 : p2 = q.head := by
        rw [isChain_head hc2, isChain_head hchain]
      have hnext := isChain_next_eq hchain (hp2 ▸ hc2)
      have hheap : h2 = h := by
        apply heap_ext (by rw [hlen2, hlen1]) (fun x => by rw [hval2, hval1]) _
          (by rw [hstrs2, hstrs1]) (by rw [hfe2, hfe1]) (by rw [hfs2, hfs1])
        intro x
        by_cases hx : x ∈ a :: l
        · exact hnext x hx
        · have hx' : x ∉ b :: l' := by
            rw [← hbl]
            exact fun hm => hx (List.mem_reverse.mp hm)
          rw [hout2 x hx', hout1 x hx]
      refine ⟨h1, _, hrun1, ?_⟩
      rw [hrun2, hheap, hp2, hp1]

/-- C7, at the queue `c, a, b`. -/
theorem q_reverse_twice_witness :
    ∃ h1 q1, q_reverse heapCAB (some queueCAB) = some (h1, q1) ∧
      q_reverse h1 q1 = some (heapCAB, some queueCAB) :=
  q_reverse_twice heapCAB (some queueCAB) (by
    intro q0 hq0
    cases hq0
    exact ⟨[2, 0, 1], by decide, by decide⟩)

/-! ## Runs -/

/-- An insertion whose second allocation fails keeps the invariant. -/
theorem invAt_noStr {h : Heap} {q : queue_t} {l : List Nat} (hi : InvAt h q l) :
    InvAt ⟨h.eles ++ [⟨none, none⟩], h.strs, h.freedEles ++ [h.eles.length], h.freedStrs⟩
      q l := by
  have hlt := invAt_lt hi
  have heles : ∀ a ∈ l, (h.eles ++ [(⟨none, none⟩ : list_ele_t)])[a]? = h.eles[a]? :=
    fun a ha => List.getElem?_append_left (hlt a ha)
  apply invAt_frame hi
  · refine ⟨fun a ha => ?_, fun v hv => hi.heap.2 v hv⟩
    simp only [List.length_append, List.length_singleton]
    rcases List.mem_append.mp ha with ha | ha
    · have := hi.heap.1 a ha
      omega
    · rw [List.mem_singleton] at ha
      omega
  · rfl
  · intro a ha; simp only [heles a ha]
  · intro a ha; exact valueOf_congr (heles a ha)
  · exact hi.size
  · exact hi.tail
  · intro t ht
    have := hi.tailValid t ht
    simp only [List.length_append, List.length_singleton]
    omega
  · intro a ha hf
    rcases List.mem_append.mp hf with hf | hf
    · exact hi.live a ha hf
    · rw [List.mem_singleton] at hf
      have := hlt a ha
      omega
  · exact Nat.le_refl _
  · intro v _ hv; exact hv

/-- A successful `q_insert_tail` through a stale `tail`, on a queue whose chain is
empty: the chain stays empty. -/
theorem invAt_insert_tail_stale {h : Heap} {q : queue_t} (hi : InvAt h q []) (s : List Nat)
    (t : Nat) (e : list_ele_t) :
    InvAt ⟨h.eles.set t { e with next := some h.eles.length } ++ [⟨some h.strs.length, none⟩],
        h.strs ++ [cstr s ++ [0]], h.freedEles, h.freedStrs⟩
      { head := q.head, tail := some h.eles.length, size := q.size + 1 } [] := by
  apply invAt_frame hi
  · exact heapOk_extend hi.heap (by simp) (by simp) rfl rfl
  · rfl
  · intro a ha; cases ha
  · intro a ha; cases ha
  · have := hi.size
    show ((([] : List Nat).length : Nat) : Int) ≤ q.size + 1
    omega
  · intro hne; exact absurd rfl hne
  · intro t' ht'
    simp only [Option.some.injEq] at ht'
    subst ht'
    simp
  · intro a ha; cases ha
  · simp
  · intro v _ hv; exact hv

theorem inv_new (h : Heap) (hh : HeapOk h) :
    InvAt h { head := none, tail := none, size := 0 } [] where
  heap := hh
  chain := by rw [chain_eq_some_iff]; exact isChain_nil.mpr rfl
  size := by simp
  tail := fun hne => absurd rfl hne
  tailValid := fun t ht => by cases ht
  live := fun a ha => by cases ha
  value := fun a ha => by cases ha
  owned := List.nodup_nil

theorem runInv_start (h : Heap) (hh : HeapOk h) (ok : Bool) : RunInv (start h ok) := by
  refine ⟨hh, ?_, ?_⟩
  · intro q hq
    cases ok with
    | false => simp [start, q_new] at hq
    | true =>
      simp only [start, q_new, if_true, Option.some.injEq] at hq
      subst hq
      exact ⟨[], inv_new h hh⟩
  · cases ok <;> simp [start, q_new, q_count]

/-- Every call with valid arguments returns and keeps the invariant of a run. -/
theorem runInv_step (r : Run) (op : Op) (hr : RunInv r) (hv : op.Valid) :
    ∃ r', step r op = some r' ∧ RunInv r' := by
  obtain ⟨h, q, ins, rem⟩ := r
  obtain ⟨hh, hinv, hsize⟩ := hr
  cases q with
  | none =>
    cases op with
    | insert_head s a b => exact ⟨_, by simp [step, q_insert_head], hh, hinv, hsize⟩
    | insert_tail s a b => exact ⟨_, by simp [step, q_insert_tail], hh, hinv, hsize⟩
    | remove_head sp n => exact ⟨_, by simp [step, q_remove_head], hh, hinv, hsize⟩
    | reverse => exact ⟨_, by simp [step, q_reverse], hh, hinv, hsize⟩
  | some q =>
    obtain ⟨l, hi⟩ := hinv q rfl
    simp only [q_count] at hsize
    cases op with
    | insert_head s okNode okStr =>
      obtain ⟨s, rfl⟩ : ∃ s', s = some s' := Option.ne_none_iff_exists'.mp hv
      cases okNode with
      | false =>
        refine ⟨_, by simp only [step, q_insert_head_eq_noNode]; rfl, hh, ?_, ?_⟩
        · intro q' hq'
          cases hq'
          exact ⟨l, hi⟩
        · simpa [q_count] using hsize
      | true =>
        cases okStr with
        | false =>
          have hi' := invAt_noStr hi
          refine ⟨_, by simp only [step, q_insert_head_eq_noStr]; rfl, hi'.heap, ?_, ?_⟩
          · intro q' hq'
            cases hq'
            exact ⟨l, hi'⟩
          · simpa [q_count] using hsize
        | true =>
          have hi' := (invAt_insert_head hi s).1
          refine ⟨_, by simp only [step, q_insert_head_eq]; rfl, hi'.heap, ?_, ?_⟩
          · intro q' hq'
            cases hq'
            exact ⟨_, hi'⟩
          · simp only [q_count, if_true, Nat.cast_add, Nat.cast_one]
            omega
    | insert_tail s okNode okStr =>
      cases s with
      | none =>
        refine ⟨_, by simp only [step, q_insert_tail]; rfl, hh, ?_, ?_⟩
        · intro q' hq'
          cases hq'
          exact ⟨l, hi⟩
        · simpa [q_count] using hsize
      | some s =>
        cases okNode with
        | false =>
          refine ⟨_, by simp only [step, q_insert_tail_eq_noNode]; rfl, hh, ?_, ?_⟩
          · intro q' hq'
            cases hq'
            exact ⟨l, hi⟩
          · simpa [q_count] using hsize
        | true =>
          cases okStr with
          | false =>
            have hi' := invAt_noStr hi
            refine ⟨_, by simp only [step, q_insert_tail_eq_noStr]; rfl, hi'.heap, ?_, ?_⟩
            · intro q' hq'
              cases hq'
              exact ⟨l, hi'⟩
            · simpa [q_count] using hsize
          | true =>
            cases ht : q.tail with
            | none =>
              obtain ⟨_, hi', _⟩ := invAt_insert_tail_none hi ht s
              refine ⟨_, by simp only [step, q_insert_tail_eq_none h q s ht]; rfl, hi'.heap,
                ?_, ?_⟩
              · intro q' hq'
                cases hq'
                exact ⟨_, hi'⟩
              · simp only [q_count, if_true, Nat.cast_add, Nat.cast_one]
                omega
            | some t =>
              have htlt := hi.tailValid t ht
              obtain ⟨e, he⟩ : ∃ e, h.eles[t]? = some e := ⟨_, List.getElem?_eq_getElem htlt⟩
              have hrun := q_insert_tail_eq_some h q s t e ht he
              by_cases hl : l = []
              · subst hl
                have hi' := invAt_insert_tail_stale hi s t e
                refine ⟨_, by simp only [step, hrun]; rfl, hi'.heap, ?_, ?_⟩
                · intro q' hq'
                  cases hq'
                  exact ⟨_, hi'⟩
                · simp only [q_count, if_true, Nat.cast_add, Nat.cast_one]
                  omega
              · obtain ⟨t', e', ht', he', hi', _⟩ := invAt_insert_tail_some hi hl s
                rw [ht] at ht'
                cases ht'
                rw [he] at he'
                cases he'
                refine ⟨_, by simp only [step, hrun]; rfl, hi'.heap, ?_, ?_⟩
                · intro q' hq'
                  cases hq'
                  exact ⟨_, hi'⟩
                · simp only [q_count, if_true, Nat.cast_add, Nat.cast_one]
                  omega
    | remove_head sp bufsize =>
      cases l with
      | nil =>
        have hhead := invAt_head_nil hi
        refine ⟨_, by simp only [step, q_remove_head, hhead]; rfl, hh, ?_, ?_⟩
        · intro q' hq'
          cases hq'
          exact ⟨[], hi⟩
        · simpa [q_count] using hsize
      | cons a l =>
        obtain ⟨e, v, b, he, hev, hb, _, hi', _⟩ := invAt_remove_head hi
        have hrun := q_remove_head_eq h q sp bufsize a e v b (invAt_head_cons hi) he hev hb hv
        refine ⟨_, by simp only [step, hrun]; rfl, hi'.heap, ?_, ?_⟩
        · intro q' hq'
          cases hq'
          exact ⟨_, hi'⟩
        · simp only [q_count, if_true, Nat.cast_add, Nat.cast_one]
          omega
    | reverse =>
      obtain ⟨h', q', hrun, hi', _, hsz, _⟩ := invAt_reverse hi
      refine ⟨_, by simp only [step, hrun]; rfl, hi'.heap, ?_, ?_⟩
      · intro q'' hq''
        cases hq''
        exact ⟨_, hi'⟩
      · simp only [q_count, hsz]
        exact hsize

theorem runInv_run (ops : List Op) :
    ∀ (r : Run), RunInv r → (∀ op ∈ ops, op.Valid) → ∃ r', run r ops = some r' ∧ RunInv r' := by
  induction ops with
  | nil => intro r hr _; exact ⟨r, rfl, hr⟩
  | cons op ops ih =>
    intro r hr hv
    obtain ⟨r1, hstep, hr1⟩ := runInv_step r op hr (hv op (List.mem_cons_self op ops))
    obtain ⟨r', hrun, hr'⟩ := ih r1 hr1 (fun o ho => hv o (List.mem_cons_of_mem op ho))
    exact ⟨r', by simp only [run, hstep, Option.some_bind, hrun], hr'⟩

theorem heapOk_emptyHeap : HeapOk emptyHeap :=
  ⟨by decide, by decide⟩

/-! ## Where the code leaves the invariant of the data model -/

/-- The queue `a` is well formed. -/
theorem wellFormed_A : WellFormed heapA queueA := by
  refine ⟨[0], ?_⟩
  refine
    { heap := ⟨by decide, by decide⟩
      chain := by decide
      size := by decide
      tail := by decide
      tailValid := by decide
      live := by decide
      value := ?_
      owned := by decide
      size_eq := by decide
      tail_nil := by decide }
  intro a ha
  rw [List.mem_singleton] at ha
  subst ha
  exact ⟨0, by decide, by decide, by decide⟩

/-- C1. After `q_insert_tail "a"` and a successful `q_remove_head` on a new queue,
both calls returning `true`, `size` is 0 and `head` is `NULL`, but `tail` still
holds the address of the element that was released: `size == 0` without
`head` and `tail` both absent. -/
theorem invariant_lost_by_last_removal :
    (run (start emptyHeap true) fillAndEmpty).map
        (fun r => (r.inserted, r.removed, r.q, r.heap.freedEles))
      = some (1, 1, some { head := none, tail := some 0, size := 0 }, [0]) := by
  decide

/-- C2. On the well-formed one-element queue `a`, `q_remove_head` returns `true`
and sets `head` to `NULL` and `size` to 0, but leaves `tail` at the element it
has released. -/
theorem q_remove_head_single_keeps_tail :
    WellFormed heapA queueA ∧
    q_remove_head heapA (some queueA) none 0
      = some ⟨true, ⟨heapA.eles, heapA.strs, [0], [0]⟩,
          some { head := none, tail := some 0, size := 0 }, none⟩ :=
  ⟨wellFormed_A, by decide⟩

/-- C9. On a queue emptied by a removal (`size` 0), `q_insert_tail` returns `true`
and makes `size` 1, but it links the new element behind the released one and
leaves `head` at `NULL`; the `q_remove_head` that follows returns `false` and
leaves the buffer as it was. -/
theorem round_trip_lost_on_emptied_queue :
    ∃ r x y, run (start emptyHeap true) fillAndEmpty = some r ∧ q_size r.q = 0 ∧
      q_insert_tail r.heap r.q (some [98]) true true = some x ∧ x.ret = true ∧
      x.q = some { head := none, tail := some 1, size := 1 } ∧
      q_remove_head x.heap x.q (some [7, 7]) 2 = some y ∧ y.ret = false ∧
      y.sp = some [7, 7] ∧ q_size y.q = 1 :=
  ⟨⟨⟨[⟨some 0, none⟩], [[97, 0]], [0], [0]⟩, some ⟨none, some 0, 0⟩, 1, 1⟩,
    ⟨true, ⟨[⟨some 0, some 1⟩, ⟨some 1, none⟩], [[97, 0], [98, 0]], [0], [0]⟩,
      some ⟨none, some 1, 1⟩⟩,
    ⟨false, ⟨[⟨some 0, some 1⟩, ⟨some 1, none⟩], [[97, 0], [98, 0]], [0], [0]⟩,
      some ⟨none, some 1, 1⟩, some [7, 7]⟩,
    by decide, by decide, by decide, by decide, by decide, by decide, by decide, by decide,
    by decide⟩

/-! ## First in first out, last in first out -/

/-- Insertions at the tail, one after the other, on a well-formed queue. -/
theorem run_insert_tails (xs : List (List Nat)) :
    ∀ (h : Heap) (q : queue_t) (l : List Nat) (ps : List (List Nat)) (i rm : Nat),
      WellFormedAt h q l → payloads h l = some ps →
      ∃ h' q' l', run ⟨h, some q, i, rm⟩ (xs.map fun s => Op.insert_tail (some s) true true)
          = some ⟨h', some q', i + xs.length, rm⟩ ∧
        WellFormedAt h' q' l' ∧ payloads h' l' = some (ps ++ xs.map cstr) := by
  induction xs with
  | nil =>
    intro h q l ps i rm hw hp
    exact ⟨h, q, l, rfl, hw, by simpa using hp⟩
  | cons s xs ih =>
    intro h q l ps i rm hw hp
    have hi := hw.toInvAt
    have hstep : ∃ h1 q1 l1, q_insert_tail h (some q) (some s) true true
          = some ⟨true, h1, some q1⟩ ∧
        WellFormedAt h1 q1 l1 ∧ payloads h1 l1 = some (ps ++ [cstr s]) := by
      by_cases hl : l = []
      · have ht := hw.tail_nil hl
        obtain ⟨_, hi', hpay'⟩ := invAt_insert_tail_none hi ht s
        subst hl
        have hps : ps = [] := by
          simp only [payloads, Option.some.injEq] at hp
          exact hp.symm
        subst hps
        exact ⟨_, _, _, q_insert_tail_eq_none h q s ht,
          { toInvAt := hi', size_eq := by simp [hw.size_eq], tail_nil := by simp }, hpay'⟩
      · obtain ⟨t, e, ht, he, hi', hpay'⟩ := invAt_insert_tail_some hi hl s
        refine ⟨_, _, _, q_insert_tail_eq_some h q s t e ht he,
          { toInvAt := hi'
            size_eq := by
              show q.size + 1 = _
              rw [hw.size_eq]
              simp
            tail_nil := by simp }, ?_⟩
        rw [hpay', hp]
        rfl
    obtain ⟨h1, q1, l1, hrun1, hw1, hp1⟩ := hstep
    obtain ⟨h', q', l', hrun, hw', hp'⟩ := ih h1 q1 l1 (ps ++ [cstr s]) (i + 1) rm hw1 hp1
    refine ⟨h', q', l', ?_, hw', ?_⟩
    · simp only [List.map_cons, run, step, hrun1, Option.map_some', Option.some_bind, if_true]
      rw [hrun]
      simp only [List.length_cons]
      congr 2
      omega
    · rw [hp']
      simp

/-- Insertions at the head, one after the other, on a well-formed queue. -/
theorem run_insert_heads (xs : List (List Nat)) :
    ∀ (h : Heap) (q : queue_t) (l : List Nat) (ps : List (List Nat)) (i rm : Nat),
      WellFormedAt h q l → payloads h l = some ps →
      ∃ h' q' l', run ⟨h, some q, i, rm⟩ (xs.map fun s => Op.insert_head (some s) true true)
          = some ⟨h', some q', i + xs.length, rm⟩ ∧
        WellFormedAt h' q' l' ∧ payloads h' l' = some ((xs.map cstr).reverse ++ ps) := by
  induction xs with
  | nil =>
    intro h q l ps i rm hw hp
    exact ⟨h, q, l, rfl, hw, by simpa using hp⟩
  | cons s xs ih =>
    intro h q l ps i rm hw hp
    have hi := hw.toInvAt
    obtain ⟨hi', hpay'⟩ := invAt_insert_head hi s
    have hw1 : WellFormedAt _ _ (h.eles.length :: l) :=
      { toInvAt := hi'
        size_eq := by
          show q.size + 1 = _
          rw [hw.size_eq]
          simp
        tail_nil := by simp }
    rw [hp] at hpay'
    obtain ⟨h', q', l', hrun, hw', hp'⟩ :=
      ih _ _ _ (cstr s :: ps) (i + 1) rm hw1 hpay'
    refine ⟨h', q', l', ?_, hw', ?_⟩
    · simp only [List.map_cons, run, step, q_insert_head_eq, Option.map_some',
        Option.some_bind, if_true]
      rw [hrun]
      simp only [List.length_cons]
      congr 2
      omega
    · rw [hp']
      simp

theorem length_remove_buffer (b buf : List Nat) (bufsize : Nat) (h1 : 1 ≤ bufsize)
    (h2 : bufsize ≤ buf.length) :
    ((cstr b).take (bufsize - 1) ++ List.replicate (bufsize - 1 - strlen b) 0
      ++ 0 :: buf.drop bufsize).length = buf.length := by
  simp only [List.length_append, List.length_take, List.length_replicate, List.length_cons,
    List.length_drop, strlen]
  omega

/-- Removals from the head until the chain is empty: they return the payloads in
chain order. -/
theorem remove_heads_all (l : List Nat) :
    ∀ (h : Heap) (q : queue_t) (ps : List (List Nat)) (buf : List Nat) (bufsize : Nat),
      InvAt h q l → q.size = (l.length : Int) → payloads h l = some ps →
      (∀ p ∈ ps, p.length < bufsize) → bufsize ≤ buf.length → bufsize < 2 ^ 64 →
      ∃ h' q', remove_heads l.length h (some q) buf bufsize
          = some (h', some q', ps.map fun p => (true, p)) ∧ q'.size = 0 := by
  induction l with
  | nil =>
    intro h q ps buf bufsize _ hsz hp _ _ _
    simp only [payloads, Option.some.injEq] at hp
    subst hp
    exact ⟨h, q, rfl, by simpa using hsz⟩
  | cons a l ih =>
    intro h q ps buf bufsize hi hsz hp hfit hle hmax
    obtain ⟨e, v, b, he, hev, hb, hpay, hi', hpay'⟩ := invAt_remove_head hi
    rw [hp] at hpay
    cases hl : payloads h l with
    | none => rw [hl] at hpay; cases hpay
    | some ps' =>
      rw [hl] at hpay
      simp only [Option.map_some', Option.some.injEq] at hpay
      subst hpay
      have hblt : strlen b < bufsize := hfit (cstr b) (List.mem_cons_self _ _)
      have h1 : 1 ≤ bufsize := by omega
      have hbuf : BufferOk (some buf) bufsize := by
        intro buf' hb'
        cases hb'
        exact ⟨h1, hle, hmax⟩
      have hrun := q_remove_head_eq h q (some buf) bufsize a e v b (invAt_head_cons hi) he hev hb
        hbuf
      have hsz' : ({ head := e.next, tail := q.tail, size := q.size - 1 } : queue_t).size
          = (l.length : Int) := by
        show q.size - 1 = _
        rw [hsz]
        simp
      obtain ⟨h', q', hrest, hzero⟩ := ih _ _ ps'
        ((cstr b).take (bufsize - 1) ++ List.replicate (bufsize - 1 - strlen b) 0
          ++ 0 :: buf.drop bufsize) bufsize hi' hsz' (by rw [hpay', hl])
        (fun p hp' => hfit p (List.mem_cons_of_mem _ hp'))
        (by rw [length_remove_buffer b buf bufsize h1 hle]; exact hle) hmax
      refine ⟨h', q', ?_, hzero⟩
      simp only [List.length_cons, remove_heads, hrun, Option.some_bind, Option.map_some',
        Option.getD_some, hrest, List.map_cons]
      rw [cstr_remove_buffer b _ bufsize hblt]

theorem wellFormedAt_new (h : Heap) (hh : HeapOk h) :
    WellFormedAt h { head := none, tail := none, size := 0 } [] :=
  { toInvAt := inv_new h hh, size_eq := rfl, tail_nil := fun _ => rfl }

/-- Filling a new queue and draining it with as many removals. -/
theorem fill_and_drain (h : Heap) (xs : List (List Nat)) (buf : List Nat) (bufsize : Nat)
    (ops : List Op) (ps : List (List Nat)) (hfit : ∀ p ∈ ps, p.length < bufsize)
    (hle : bufsize ≤ buf.length) (hmax : bufsize < 2 ^ 64) (hlen : ps.length = xs.length)
    (hfill : ∃ h' q' l', run ⟨h, some { head := none, tail := none, size := 0 }, 0, 0⟩ ops
          = some ⟨h', some q', 0 + xs.length, 0⟩ ∧
        WellFormedAt h' q' l' ∧ payloads h' l' = some ps) :
    ∃ r h' q', run (start h true) ops = some r ∧ r.inserted = xs.length ∧
      remove_heads xs.length r.heap r.q buf bufsize
        = some (h', q', ps.map fun p => (true, p)) ∧
      q_size q' = 0 := by
  obtain ⟨h1, q1, l1, hrun, hw1, hp1⟩ := hfill
  obtain ⟨ps', hps', hlen'⟩ := invAt_payloads hw1.toInvAt
  rw [hp1] at hps'
  cases hps'
  obtain ⟨h', q', hrem, hzero⟩ :=
    remove_heads_all l1 h1 q1 ps buf bufsize hw1.toInvAt hw1.size_eq hp1 hfit hle hmax
  refine ⟨_, h', some q', hrun, by simp, ?_, ?_⟩
  · rw [← hlen, hlen']
    exact hrem
  · show to_int q'.size = 0
    rw [hzero]
    rfl

/-- C10. First in first out, last in first out. From a new queue, inserting the
strings of `xs` in order with `q_insert_tail` and then calling `q_remove_head`
as many times, with a buffer that every string fits in, yields the strings in
the order of `xs`; inserting them with `q_insert_head` yields them in the
reverse order. In both cases every insertion and every removal returns `true`
and the queue ends with `size` 0. -/
theorem fifo_lifo_order (h : Heap) (xs : List (List Nat)) (buf : List Nat) (bufsize : Nat)
    (hh : HeapOk h) (hfit : ∀ x ∈ xs, strlen x < bufsize) (hle : bufsize ≤ buf.length)
    (hmax : bufsize < 2 ^ 64) :
    (∃ r h' q', run (start h true) (xs.map fun s => Op.insert_tail (some s) true true) = some r ∧
        r.inserted = xs.length ∧
        remove_heads xs.length r.heap r.q buf bufsize
          = some (h', q', xs.map fun x => (true, cstr x)) ∧
        q_size q' = 0) ∧
    (∃ r h' q', run (start h true) (xs.map fun s => Op.insert_head (some s) true true) = some r ∧
        r.inserted = xs.length ∧
        remove_heads xs.length r.heap r.q buf bufsize
          = some (h', q', xs.reverse.map fun x => (true, cstr x)) ∧
        q_size q' = 0) := by
  have hw := wellFormedAt_new h hh
  have hp : payloads h [] = some [] := rfl
  constructor
  · have hfill := run_insert_tails xs h _ [] [] 0 0 hw hp
    rw [List.nil_append] at hfill
    have := fill_and_drain h xs buf bufsize _ (xs.map cstr)
      (fun p hp => by
        obtain ⟨x, hx, rfl⟩ := List.mem_map.mp hp
        exact hfit x hx)
      hle hmax (by simp) hfill
    rw [List.map_map] at this
    exact this
  · have hfill := run_insert_heads xs h _ [] [] 0 0 hw hp
    rw [List.append_nil] at hfill
    have := fill_and_drain h xs buf bufsize _ (xs.map cstr).reverse
      (fun p hp => by
        obtain ⟨x, hx, rfl⟩ := List.mem_map.mp (List.mem_reverse.mp hp)
        exact hfit x hx)
      hle hmax (by simp) hfill
    rw [← List.map_reverse, List.map_map] at this
    exact this

/-- C10, for the strings `a`, `b`, `c` and a buffer of four bytes. -/
theorem fifo_lifo_order_witness :
    (∃ r h' q', run (start emptyHeap true)
          ([[97], [98], [99]].map fun s => Op.insert_tail (some s) true true) = some r ∧
        r.inserted = [[97], [98], [99]].length ∧
        remove_heads [[97], [98], [99]].length r.heap r.q [0, 0, 0, 0] 4
          = some (h', q', [[97], [98], [99]].map fun x => (true, cstr x)) ∧
        q_size q' = 0) ∧
    (∃ r h' q', run (start emptyHeap true)
          ([[97], [98], [99]].map fun s => Op.insert_head (some s) true true) = some r ∧
        r.inserted = [[97], [98], [99]].length ∧
        remove_heads [[97], [98], [99]].length r.heap r.q [0, 0, 0, 0] 4
          = some (h', q', [[97], [98], [99]].reverse.map fun x => (true, cstr x)) ∧
        q_size q' = 0) :=
  fifo_lifo_order emptyHeap [[97], [98], [99]] [0, 0, 0, 0] 4 heapOk_emptyHeap (by decide)
    (by decide) (by decide)

/-! ## Absent arguments and failed allocations -/

/-- C13. Every operation is safe on an absent queue: `q_insert_head` and
`q_insert_tail` return `false` whatever the string argument (absent included)
and whatever the allocator would do, `q_remove_head` returns `false` and
leaves the buffer as it was, `q_size` returns 0, and `q_reverse` and `q_free`
return; in every case the heap is unchanged, so nothing is allocated,
released or written, and `q_free` releases no queue structure. -/
theorem absent_queue_safe (h : Heap) (s : Option (List Nat)) (okNode okStr : Bool)
    (sp : Option (List Nat)) (bufsize : Nat) :
    q_insert_head h none s okNode okStr = some ⟨false, h, none⟩ ∧
    q_insert_tail h none s okNode okStr = some ⟨false, h, none⟩ ∧
    q_remove_head h none sp bufsize = some ⟨false, h, none, sp⟩ ∧
    q_size none = 0 ∧
    q_reverse h none = some (h, none) ∧
    q_free h none = some (h, false) := by
  refine ⟨rfl, ?_, rfl, rfl, rfl, rfl⟩
  cases s <;> rfl

theorem liveEles_noStr (h : Heap) (x : list_ele_t) :
    liveEles ⟨h.eles ++ [x], h.strs, h.freedEles ++ [h.eles.length], h.freedStrs⟩
      = liveEles h := by
  simp only [liveEles, List.length_append, List.length_singleton, List.range_succ,
    List.filter_append]
  have h1 : List.filter (fun a => decide (a ∉ h.freedEles ++ [h.eles.length]))
      [h.eles.length] = [] := by
    simp
  rw [h1, List.append_nil]
  apply List.filter_congr
  intro a ha
  have hlt : a < h.eles.length := List.mem_range.mp ha
  have hne : a ≠ h.eles.length := Nat.ne_of_lt hlt
  simp [hne]

/-- C14. Insertion is atomic under allocation failure. When the allocation of the
element fails, `q_insert_head` and `q_insert_tail` return `false` with the heap
and the queue exactly as before. When the allocation of the string fails
after that of the element, they return `false` with the queue structure as
before, every block that existed before the call unchanged, and the element
block handed out during the call released: the live element and string blocks
are those of before the call. -/
theorem insert_atomic_on_failed_alloc (h : Heap) (q : queue_t) (s : List Nat) (okStr : Bool) :
    q_insert_head h (some q) (some s) false okStr = some ⟨false, h, some q⟩ ∧
    q_insert_tail h (some q) (some s) false okStr = some ⟨false, h, some q⟩ ∧
    ∃ h', q_insert_head h (some q) (some s) true false = some ⟨false, h', some q⟩ ∧
      q_insert_tail h (some q) (some s) true false = some ⟨false, h', some q⟩ ∧
      (∀ a, a < h.eles.length → h'.eles[a]? = h.eles[a]?) ∧ h'.strs = h.strs ∧
      h'.eles.length = h.eles.length + 1 ∧ h.eles.length ∈ h'.freedEles ∧
      liveEles h' = liveEles h ∧ liveStrs h' = liveStrs h := by
  refine ⟨q_insert_head_eq_noNode h q (some s) okStr, q_insert_tail_eq_noNode h q s okStr,
    _, q_insert_head_eq_noStr h q s, q_insert_tail_eq_noStr h q s, ?_, rfl, ?_, ?_,
    liveEles_noStr h _, rfl⟩
  · intro a ha
    exact List.getElem?_append_left ha
  · simp
  · simp

/-- C15. With an absent string on a present queue, `q_insert_tail` returns `false`
and changes nothing, while `q_insert_head`, once its element is allocated,
reads the string without a check: the call has no defined outcome. -/
theorem insert_head_reads_absent_string (h : Heap) (q : queue_t) (okNode okStr : Bool) :
    q_insert_tail h (some q) none okNode okStr = some ⟨false, h, some q⟩ ∧
    q_insert_head h (some q) none true okStr = none := by
  constructor
  · rfl
  · simp [q_insert_head, malloc_ele]

/-! ## More consequences of the stale `tail` -/

/-- C11. After one string is inserted and removed and a second one is inserted at
the tail, all three calls returning `true`, `q_size` is 1, and `q_remove_head`
returns `false`, the queue and the buffer unchanged: it fails on a queue whose
`size` is not 0. -/
theorem q_remove_head_false_at_size_one :
    ∃ r y, run (start emptyHeap true) fillEmptyFill = some r ∧
      r.inserted = 2 ∧ r.removed = 1 ∧ q_size r.q = 1 ∧
      q_remove_head r.heap r.q (some [7, 7]) 2 = some y ∧ y.ret = false ∧
      y.heap = r.heap ∧ y.q = r.q ∧ y.sp = some [7, 7] :=
  ⟨⟨⟨[⟨some 0, some 1⟩, ⟨some 1, none⟩], [[97, 0], [98, 0]], [0], [0]⟩,
      some ⟨none, some 1, 1⟩, 2, 1⟩,
    ⟨false, ⟨[⟨some 0, some 1⟩, ⟨some 1, none⟩], [[97, 0], [98, 0]], [0], [0]⟩,
      some ⟨none, some 1, 1⟩, some [7, 7]⟩,
    by decide, by decide, by decide, by decide, by decide, by decide, by decide, by decide,
    by decide⟩

/-- C16. After one string is inserted and removed and a second one is inserted at
the tail, `q_free` walks the chain from `head`, which is `NULL`, releases the
queue structure, and leaves the second element and its string live. -/
theorem q_free_leaks_unreached_element :
    ∃ r x, run (start emptyHeap true) fillEmptyFill = some r ∧
      r.inserted = 2 ∧ r.removed = 1 ∧
      q_free r.heap r.q = some x ∧ x.2 = true ∧
      liveEles x.1 = [1] ∧ liveStrs x.1 = [1] :=
  ⟨⟨⟨[⟨some 0, some 1⟩, ⟨some 1, none⟩], [[97, 0], [98, 0]], [0], [0]⟩,
      some ⟨none, some 1, 1⟩, 2, 1⟩,
    (⟨[⟨some 0, some 1⟩, ⟨some 1, none⟩], [[97, 0], [98, 0]], [0], [0]⟩, true),
    by decide, by decide, by decide, by decide, by decide, by decide, by decide⟩

/-! ## The buffer of `q_remove_head` -/

/-- A successful `q_remove_head` with a buffer that holds `bufsize >= 1` bytes, on a
queue whose chain starts with `a`: the bytes it leaves in the buffer. -/
theorem remove_head_with_buffer {h : Heap} {q : queue_t} {a : Nat} {l : List Nat}
    (hi : InvAt h q (a :: l)) (buf : List Nat) (bufsize : Nat) (h1 : 1 ≤ bufsize)
    (h2 : bufsize ≤ buf.length) (h3 : bufsize < 2 ^ 64) :
    ∃ b r, payload h a = some (cstr b) ∧
      q_remove_head h (some q) (some buf) bufsize = some r ∧ r.ret = true ∧
      r.sp = some ((cstr b).take (bufsize - 1) ++ List.replicate (bufsize - 1 - strlen b) 0
        ++ 0 :: buf.drop bufsize) := by
  obtain ⟨e, v, b, he, hev, hb, _, _, _⟩ := invAt_remove_head hi
  have hbuf : BufferOk (some buf) bufsize := by
    intro buf' hb'
    cases hb'
    exact ⟨h1, h2, h3⟩
  refine ⟨b, _, ?_, q_remove_head_eq h q (some buf) bufsize a e v b (invAt_head_cons hi) he hev
    hb hbuf, rfl, rfl⟩
  simp [payload, valueOf, he, hev, hb]

/-- The head payload of a well-formed queue with contents `p :: ps`. -/
theorem wellFormed_head_payload {h : Heap} {q : queue_t} {p : List Nat} {ps : List (List Nat)}
    (hwf : WellFormed h q) (hc : contents h q = some (p :: ps)) :
    ∃ a l, InvAt h q (a :: l) ∧ payload h a = some p := by
  obtain ⟨l, hw⟩ := hwf
  obtain ⟨hps, hlen⟩ := wellFormedAt_contents hw hc
  cases l with
  | nil => simp at hlen
  | cons a l =>
    refine ⟨a, l, hw.toInvAt, ?_⟩
    rw [payloads] at hps
    cases hp : payload h a with
    | none => rw [hp] at hps; cases hps
    | some p' =>
      rw [hp] at hps
      cases hl : payloads h l with
      | none => rw [hl] at hps; cases hps
      | some ps' =>
        rw [hl] at hps
        simp only [Option.some_bind, Option.map_some', Option.some.injEq,
          List.cons.injEq] at hps
        rw [hps.1]

theorem cstr_take_append_zero (b : List Nat) (n : Nat) (rest : List Nat) :
    cstr ((cstr b).take n ++ 0 :: rest) = (cstr b).take n :=
  cstr_append_zero _ rest (fun c hc => cstr_ne_zero b c (List.mem_of_mem_take hc))

/-- The string that the buffer holds after the call: the payload cut to
`bufsize - 1` bytes. -/
theorem cstr_remove_buffer_take (b rest : List Nat) (bufsize : Nat) :
    cstr ((cstr b).take (bufsize - 1) ++ List.replicate (bufsize - 1 - strlen b) 0
      ++ 0 :: rest) = (cstr b).take (bufsize - 1) := by
  cases hn : bufsize - 1 - strlen b with
  | zero => simpa using cstr_take_append_zero b (bufsize - 1) rest
  | succ n =>
    rw [List.replicate_succ, List.append_assoc]
    exact cstr_take_append_zero b (bufsize - 1) _

theorem length_take_pad (b : List Nat) (n : Nat) :
    ((cstr b).take n ++ List.replicate (n - strlen b) 0).length = n := by
  simp only [List.length_append, List.length_take, List.length_replicate, strlen]
  omega

/-- C12. The copy-and-truncate contract of `q_remove_head`. On a well-formed queue
whose head payload is `p`, with a buffer that holds `bufsize >= 1` bytes, the
call returns `true`, however long `p` is; the first `min (length p)
(bufsize - 1)` bytes of the buffer are those of `p`, the byte at index
`bufsize - 1` is the terminator, and the buffer read as a string is `p` cut to
`bufsize - 1` bytes. -/
theorem q_remove_head_copies_truncated (h : Heap) (q : queue_t) (p : List Nat)
    (ps : List (List Nat)) (buf : List Nat) (bufsize : Nat)
    (hwf : WellFormed h q) (hc : contents h q = some (p :: ps)) (h1 : 1 ≤ bufsize)
    (h2 : bufsize ≤ buf.length) (h3 : bufsize < 2 ^ 64) :
    ∃ r buf', q_remove_head h (some q) (some buf) bufsize = some r ∧ r.ret = true ∧
      r.sp = some buf' ∧
      buf'.take (min p.length (bufsize - 1)) = p.take (min p.length (bufsize - 1)) ∧
      buf'[bufsize - 1]? = some 0 ∧
      cstr buf' = p.take (bufsize - 1) := by
  obtain ⟨a, l, hi, hpa⟩ := wellFormed_head_payload hwf hc
  obtain ⟨b, r, hpb, hrun, hret, hsp⟩ := remove_head_with_buffer hi buf bufsize h1 h2 h3
  rw [hpa] at hpb
  cases hpb
  refine ⟨r, _, hrun, hret, hsp, ?_, ?_, cstr_remove_buffer_take b _ bufsize⟩
  · have hlen : ((cstr b).take (bufsize - 1)).length = min (cstr b).length (bufsize - 1) := by
      rw [List.length_take, Nat.min_comm]
    rw [List.append_assoc, List.take_append_of_le_length (by rw [hlen])]
    rw [List.take_take, Nat.min_assoc, Nat.min_self]
  · have hlen := length_take_pad b (bufsize - 1)
    rw [List.getElem?_append_right (by rw [hlen])]
    simp [hlen]


/-- The queue `b, a, c` is well formed. -/
theorem wellFormed_BAC : WellFormed heapBAC queueBAC := by
  refine ⟨[1, 0, 2], ?_⟩
  refine
    { heap := ⟨by decide, by decide⟩
      chain := by decide
      size := by decide
      tail := by decide
      tailValid := by decide
      live := by decide
      value := ?_
      owned := by decide
      size_eq := by decide
      tail_nil := by decide }
  intro a ha
  simp only [List.mem_cons, List.mem_singleton, List.not_mem_nil, or_false] at ha
  rcases ha with rfl | rfl | rfl
  · exact ⟨1, by decide, by decide, by decide⟩
  · exact ⟨0, by decide, by decide, by decide⟩
  · exact ⟨2, by decide, by decide, by decide⟩

theorem contents_BAC : contents heapBAC queueBAC = some [[98], [97], [99]] := by
  decide

/-- C12, at the queue `b, a, c` with a capacity of 2: the buffer holds `b` and the
terminator. -/
theorem q_remove_head_copies_truncated_witness :
    ∃ r buf', q_remove_head heapBAC (some queueBAC) (some [7, 7, 7]) 2 = some r ∧
      r.ret = true ∧ r.sp = some buf' ∧
      buf'.take (min [98].length (2 - 1)) = [98].take (min [98].length (2 - 1)) ∧
      buf'[2 - 1]? = some 0 ∧
      cstr buf' = [98].take (2 - 1) :=
  q_remove_head_copies_truncated heapBAC queueBAC [98] [[97], [99]] [7, 7, 7] 2 wellFormed_BAC
    contents_BAC (by decide) (by decide) (by decide)

/-- C18. A successful `q_remove_head` overwrites the first `bufsize` bytes of the
buffer. On a well-formed queue whose head payload is `p`, with a buffer that
holds `bufsize >= 1` bytes, the bytes at indices `0 .. bufsize - 1` after the
call are the first `min (length p) (bufsize - 1)` bytes of `p` followed by
zero bytes up to and including index `bufsize - 1`, whatever they were
before; the bytes from index `bufsize` on are kept. -/
theorem q_remove_head_overwrites_buffer (h : Heap) (q : queue_t) (p : List Nat)
    (ps : List (List Nat)) (buf : List Nat) (bufsize : Nat)
    (hwf : WellFormed h q) (hc : contents h q = some (p :: ps)) (h1 : 1 ≤ bufsize)
    (h2 : bufsize ≤ buf.length) (h3 : bufsize < 2 ^ 64) :
    ∃ r buf', q_remove_head h (some q) (some buf) bufsize = some r ∧ r.ret = true ∧
      r.sp = some buf' ∧
      buf'.take bufsize = p.take (min p.length (bufsize - 1))
        ++ List.replicate (bufsize - min p.length (bufsize - 1)) 0 ∧
      buf'.drop bufsize = buf.drop bufsize ∧ buf'.length = buf.length := by
  obtain ⟨a, l, hi, hpa⟩ := wellFormed_head_payload hwf hc
  obtain ⟨b, r, hpb, hrun, hret, hsp⟩ := remove_head_with_buffer hi buf bufsize h1 h2 h3
  rw [hpa] at hpb
  cases hpb
  have hlen := length_take_pad b (bufsize - 1)
  have hsplit : (cstr b).take (bufsize - 1) ++ List.replicate (bufsize - 1 - strlen b) 0
      ++ 0 :: buf.drop bufsize
      = ((cstr b).take (bufsize - 1) ++ List.replicate (bufsize - 1 - strlen b) 0 ++ [0])
        ++ buf.drop bufsize := by
    simp
  have hlen1 : ((cstr b).take (bufsize - 1) ++ List.replicate (bufsize - 1 - strlen b) 0
      ++ [0]).length = bufsize := by
    rw [List.length_append, hlen]
    simp only [List.length_singleton]
    omega
  refine ⟨r, _, hrun, hret, hsp, ?_, ?_, length_remove_buffer b buf bufsize h1 h2⟩
  · rw [hsplit, List.take_left' hlen1, List.append_assoc]
    have hz : List.replicate (bufsize - 1 - strlen b) 0 ++ [0]
        = List.replicate (bufsize - min (cstr b).length (bufsize - 1)) 0 := by
      rw [← List.replicate_succ']
      congr 1
      unfold strlen
      omega
    rw [hz]
    congr 1
    rw [List.take_eq_take]
    omega
  · rw [hsplit, List.drop_left' hlen1]

/-- C18, at the queue `b, a, c` with a capacity of 3 and a buffer of four bytes. -/
theorem q_remove_head_overwrites_buffer_witness :
    ∃ r buf', q_remove_head heapBAC (some queueBAC) (some [7, 7, 7, 7]) 3 = some r ∧
      r.ret = true ∧ r.sp = some buf' ∧
      buf'.take 3 = [98].take (min [98].length (3 - 1))
        ++ List.replicate (3 - min [98].length (3 - 1)) 0 ∧
      buf'.drop 3 = [7, 7, 7, 7].drop 3 ∧ buf'.length = [7, 7, 7, 7].length :=
  q_remove_head_overwrites_buffer heapBAC queueBAC [98] [[97], [99]] [7, 7, 7, 7] 3
    wellFormed_BAC contents_BAC (by decide) (by decide) (by decide)

/-- The two buffer writes of `q_remove_head` stay inside the buffer exactly when the
index `n` of the terminator does. -/
theorem copy_isSome_iff (buf b : List Nat) (n : Nat) :
    ((strncpy buf b n).bind fun buf1 => store buf1 n 0).isSome = true ↔ n < buf.length := by
  unfold strncpy
  by_cases hle : n ≤ buf.length
  · have hlen : ((cstr b).take n ++ List.replicate (n - strlen b) 0 ++ buf.drop n).length
        = buf.length := by
      simp only [List.length_append, List.length_take, List.length_replicate,
        List.length_drop, strlen]
      omega
    simp only [hle, if_true, Option.some_bind, store, hlen]
    by_cases hlt : n < buf.length
    · simp [hlt]
    · simp [hlt]
  · simp only [hle, if_false, Option.none_bind, Option.isSome_none]
    constructor
    · intro hf; cases hf
    · intro hlt; omega

/-- On a queue that has a head element, `q_remove_head` with a buffer has a
defined outcome exactly when every index it writes lies inside the buffer. -/
theorem q_remove_head_isSome_iff {h : Heap} {q : queue_t} {a : Nat} {l : List Nat}
    (hi : InvAt h q (a :: l)) (buf : List Nat) (bufsize : Nat) :
    (q_remove_head h (some q) (some buf) bufsize).isSome = true ↔
      ∀ i, Written bufsize i → i < buf.length := by
  obtain ⟨e, v, b, he, hev, hb, _, _, _⟩ := invAt_remove_head hi
  have hcopy := copy_isSome_iff buf b (size_sub bufsize 1)
  have hrun : (q_remove_head h (some q) (some buf) bufsize).isSome
      = ((strncpy buf b (size_sub bufsize 1)).bind fun buf1 =>
          store buf1 (size_sub bufsize 1) 0).isSome := by
    simp only [q_remove_head, invAt_head_cons hi, he, hev, hb, Option.some_bind]
    cases strncpy buf b (size_sub bufsize 1) with
    | none => rfl
    | some buf1 =>
      simp only [Option.some_bind]
      cases store buf1 (size_sub bufsize 1) 0 <;> rfl
  rw [hrun, hcopy]
  constructor
  · intro hlt i hw
    rcases hw with hw | hw
    · omega
    · omega
  · intro hall
    exact hall _ (Or.inr rfl)

/-- C19, as stated, fails at capacity 0: `bufsize - 1` wraps around to
`2 ^ 64 - 1`, so indices that are not below the capacity are written (index 2
among them), and on the one-element queue `a` with a two-byte buffer the call
overruns the buffer. -/
theorem q_remove_head_overruns_at_capacity_zero :
    (¬ ∀ bufsize i, bufsize < 2 ^ 64 → Written bufsize i → i < bufsize) ∧
    Written 0 2 ∧ ¬ 2 < 0 ∧
    q_remove_head heapA (some queueA) (some [7, 7]) 0 = none := by
  have hw : Written 0 2 := by
    left
    unfold size_sub
    norm_num
  refine ⟨?_, hw, by decide, by decide⟩
  intro hall
  have := hall 0 2 (by norm_num) hw
  omega

theorem payload_eq_some {h : Heap} {a : Nat} {p : List Nat} (hp : payload h a = some p) :
    ∃ e v b, h.eles[a]? = some e ∧ e.value = some v ∧ h.strs[v]? = some b ∧ p = cstr b := by
  unfold payload valueOf at hp
  cases he : h.eles[a]? with
  | none => rw [he] at hp; cases hp
  | some e =>
    rw [he] at hp
    cases hv : e.value with
    | none => simp [hv] at hp
    | some v =>
      cases hb : h.strs[v]? with
      | none => simp [hv, hb] at hp
      | some b =>
        refine ⟨e, v, b, rfl, hv, hb, ?_⟩
        simp [hv, hb] at hp
        exact hp.symm

/-- On a queue whose head element holds a string, `q_remove_head` with a buffer has
a defined outcome exactly when every index it writes lies inside the
buffer. -/
theorem q_remove_head_defined_iff {h : Heap} {q : queue_t} {a : Nat} {p : List Nat}
    (hhead : q.head = some a) (hp : payload h a = some p) (buf : List Nat) (bufsize : Nat) :
    (q_remove_head h (some q) (some buf) bufsize).isSome = true ↔
      ∀ i, Written bufsize i → i < buf.length := by
  obtain ⟨e, v, b, he, hev, hb, _⟩ := payload_eq_some hp
  have hcopy := copy_isSome_iff buf b (size_sub bufsize 1)
  have hrun : (q_remove_head h (some q) (some buf) bufsize).isSome
      = ((strncpy buf b (size_sub bufsize 1)).bind fun buf1 =>
          store buf1 (size_sub bufsize 1) 0).isSome := by
    simp only [q_remove_head, hhead, he, hev, hb, Option.some_bind]
    cases strncpy buf b (size_sub bufsize 1) with
    | none => rfl
    | some buf1 =>
      simp only [Option.some_bind]
      cases store buf1 (size_sub bufsize 1) 0 <;> rfl
  rw [hrun, hcopy]
  constructor
  · intro hlt i hw
    rcases hw with hw | hw
    · omega
    · omega
  · intro hall
    exact hall _ (Or.inr rfl)

/-- C19, amended. On every non-empty queue (the head element holds a string), for
every buffer and every capacity `bufsize >= 1` of type `size_t`, every index
that `q_remove_head` writes in the buffer is below `bufsize`. Accordingly the
call has a defined outcome exactly when the buffer holds `bufsize` bytes, and
it then returns `true` and keeps the bytes of the buffer from index `bufsize`
on. -/
theorem q_remove_head_writes_below_capacity (h : Heap) (q : queue_t) (a : Nat) (p : List Nat)
    (buf : List Nat) (bufsize : Nat)
    (hhead : q.head = some a) (hp : payload h a = some p) (h1 : 1 ≤ bufsize)
    (h3 : bufsize < 2 ^ 64) :
    (∀ i, Written bufsize i → i < bufsize) ∧
    ((q_remove_head h (some q) (some buf) bufsize).isSome = true ↔ bufsize ≤ buf.length) ∧
    (bufsize ≤ buf.length →
      ∃ r buf', q_remove_head h (some q) (some buf) bufsize = some r ∧ r.ret = true ∧
        r.sp = some buf' ∧ buf'.length = buf.length ∧
        buf'.drop bufsize = buf.drop bufsize) := by
  have hw : ∀ i, Written bufsize i ↔ i < bufsize := by
    intro i
    unfold Written
    rw [size_sub_one h1]
    omega
  refine ⟨fun i hi => (hw i).mp hi, ?_, ?_⟩
  · rw [q_remove_head_defined_iff hhead hp buf bufsize]
    constructor
    · intro hall
      have := hall (bufsize - 1) ((hw _).mpr (by omega))
      omega
    · intro hle i hi
      have := (hw i).mp hi
      omega
  · intro h2
    obtain ⟨e, v, b, he, hev, hb, _⟩ := payload_eq_some hp
    have hbuf : BufferOk (some buf) bufsize := by
      intro buf' hb'
      cases hb'
      exact ⟨h1, h2, h3⟩
    have hrun := q_remove_head_eq h q (some buf) bufsize a e v b hhead he hev hb hbuf
    have hlen := length_take_pad b (bufsize - 1)
    refine ⟨_, _, hrun, rfl, rfl, length_remove_buffer b buf bufsize h1 h2, ?_⟩
    have hsplit : (cstr b).take (bufsize - 1) ++ List.replicate (bufsize - 1 - strlen b) 0
        ++ 0 :: buf.drop bufsize
        = ((cstr b).take (bufsize - 1) ++ List.replicate (bufsize - 1 - strlen b) 0 ++ [0])
          ++ buf.drop bufsize := by
      simp
    have hlen1 : ((cstr b).take (bufsize - 1) ++ List.replicate (bufsize - 1 - strlen b) 0
        ++ [0]).length = bufsize := by
      rw [List.length_append, hlen]
      simp only [List.length_singleton]
      omega
    show List.drop bufsize ((cstr b).take (bufsize - 1)
      ++ List.replicate (bufsize - 1 - strlen b) 0 ++ 0 :: buf.drop bufsize) = _
    rw [hsplit, List.drop_left' hlen1]

/-- C19, amended, at a queue that is not well formed: the queue `c` of `size` 2
reached by inserting and removing `a`, inserting `b` at the tail and `c` at the
head, with a capacity of 2 and a buffer of three bytes. -/
theorem q_remove_head_writes_below_capacity_witness :
    (∀ i, Written 2 i → i < 2) ∧
    ((q_remove_head
        ⟨[⟨some 0, some 1⟩, ⟨some 1, none⟩, ⟨some 2, none⟩], [[97, 0], [98, 0], [99, 0]],
          [0], [0]⟩
        (some ⟨some 2, some 2, 2⟩) (some [7, 7, 7]) 2).isSome = true ↔ 2 ≤ [7, 7, 7].length) ∧
    (2 ≤ [7, 7, 7].length →
      ∃ r buf', q_remove_head
          ⟨[⟨some 0, some 1⟩, ⟨some 1, none⟩, ⟨some 2, none⟩], [[97, 0], [98, 0], [99, 0]],
            [0], [0]⟩
          (some ⟨some 2, some 2, 2⟩) (some [7, 7, 7]) 2 = some r ∧ r.ret = true ∧
        r.sp = some buf' ∧ buf'.length = [7, 7, 7].length ∧
        buf'.drop 2 = [7, 7, 7].drop 2) :=
  q_remove_head_writes_below_capacity _ ⟨some 2, some 2, 2⟩ 2 [99] [7, 7, 7] 2 rfl (by decide)
    (by decide) (by decide)

/-! ## The loops -/

/-- The loop of `q_free` on a chain `l`: with enough fuel it releases the elements
of `l` in order, and the string of each one whose `value` is not `NULL`; it
runs out of fuel exactly when the fuel is less than the length of `l`. -/
theorem q_free_loop_eq {l : List Nat} :
    ∀ (fuel : Nat) (h : Heap) (p : Option Nat), IsChain h p l →
      q_free_loop fuel h p =
        if l.length ≤ fuel then
          some ⟨h.eles, h.strs, h.freedEles ++ l, h.freedStrs ++ l.filterMap (valueOf h)⟩
        else none := by
  induction l with
  | nil =>
    intro fuel h p hc
    rw [isChain_nil] at hc
    subst hc
    cases fuel <;> simp [q_free_loop]
  | cons c l ih =>
    intro fuel h p hc
    rw [isChain_cons] at hc
    obtain ⟨hp, e, he, hl⟩ := hc
    subst hp
    cases fuel with
    | zero => simp [q_free_loop]
    | succ fuel =>
      have hvc : valueOf h c = e.value := by simp [valueOf, he]
      have hvalf : ∀ fe fs : List Nat, valueOf ⟨h.eles, h.strs, fe, fs⟩ = valueOf h :=
        fun _ _ => rfl
      simp only [q_free_loop, he, Option.some_bind, List.length_cons,
        Nat.add_le_add_iff_right]
      cases hv : e.value with
      | none =>
        have hl' : IsChain (free_ele h c) e.next l :=
          @isChain_congr h (free_ele h c) l (fun _ _ => rfl) _ hl
        rw [ih fuel _ _ hl']
        simp [free_ele, hvalf, List.filterMap_cons, hvc, hv]
      | some v =>
        have hl' : IsChain (free_ele (free_str h v) c) e.next l :=
          @isChain_congr h (free_ele (free_str h v) c) l (fun _ _ => rfl) _ hl
        rw [ih fuel _ _ hl']
        simp [free_ele, free_str, hvalf, List.filterMap_cons, hvc, hv]

/-- The loop of `q_reverse` runs out of fuel when the fuel is less than the number of
elements still to visit. -/
theorem q_reverse_loop_none {todo : List Nat} :
    ∀ (fuel : Nat) (h : Heap) (temp prev : Option Nat), IsChain h temp todo →
      fuel < todo.length → q_reverse_loop fuel h temp prev = none := by
  induction todo with
  | nil => intro fuel h temp prev _ hlt; simp at hlt
  | cons t todo ih =>
    intro fuel h temp prev hc hlt
    have hnd := isChain_nodup hc
    rw [isChain_cons] at hc
    obtain ⟨htemp, e, he, hrest⟩ := hc
    subst htemp
    cases fuel with
    | zero => rfl
    | succ fuel =>
      have htn : t ∉ todo := (List.nodup_cons.mp hnd).1
      have hrest1 := isChain_set_of_not_mem { e with next := prev } htn hrest
      simp only [q_reverse_loop, he, Option.some_bind, set_next_eq he]
      exact ih fuel _ e.next (some t) hrest1
        (by simp only [List.length_cons] at hlt; omega)

/-- The loop of `q_reverse` completes exactly when the fuel covers the elements
still to visit. -/
theorem q_reverse_loop_isSome_iff {todo : List Nat} (fuel : Nat) (h : Heap)
    (temp prev : Option Nat) (done : List Nat) (ht : IsChain h temp todo)
    (hd : IsChain h prev done) (hdisj : ∀ a ∈ todo, a ∉ done) :
    (q_reverse_loop fuel h temp prev).isSome = true ↔ todo.length ≤ fuel := by
  constructor
  · intro hs
    by_contra hlt
    rw [q_reverse_loop_none fuel h temp prev ht (by omega)] at hs
    cases hs
  · intro hle
    obtain ⟨h', p', hrun, _⟩ := q_reverse_loop_spec fuel h temp prev done ht hd hdisj hle
    rw [hrun]
    rfl

/-- More fuel does not change what the loop of `q_reverse` returns. -/
theorem q_reverse_loop_mono :
    ∀ (fuel fuel' : Nat) (h : Heap) (temp prev : Option Nat) (x : Heap × Option Nat),
      q_reverse_loop fuel h temp prev = some x → fuel ≤ fuel' →
      q_reverse_loop fuel' h temp prev = some x := by
  intro fuel
  induction fuel with
  | zero =>
    intro fuel' h temp prev x hx _
    cases temp with
    | none =>
      cases fuel' with
      | zero => exact hx
      | succ f => simpa [q_reverse_loop] using hx
    | some t => simp [q_reverse_loop] at hx
  | succ fuel ih =>
    intro fuel' h temp prev x hx hle
    obtain ⟨f, rfl⟩ : ∃ f, fuel' = f + 1 := ⟨fuel' - 1, by omega⟩
    cases temp with
    | none => simpa [q_reverse_loop] using hx
    | some t =>
      simp only [q_reverse_loop] at hx ⊢
      cases he : h.eles[t]? with
      | none => rw [he] at hx; cases hx
      | some e =>
        rw [he] at hx
        simp only [Option.some_bind] at hx ⊢
        cases hs : set_next h t prev with
        | none => rw [hs] at hx; cases hx
        | some h1 =>
          rw [hs] at hx
          simp only [Option.some_bind] at hx ⊢
          exact ih f h1 e.next (some t) x hx (by omega)

/-- The outcome of `q_insert_head`, apart from the heap, is the same in two heaps
with as many element blocks. -/
theorem q_insert_head_local (h h₂ : Heap) (q : queue_t) (s : Option (List Nat))
    (okNode okStr : Bool) (hlen : h₂.eles.length = h.eles.length) :
    (q_insert_head h₂ (some q) s okNode okStr).map (fun r => (r.ret, r.q))
      = (q_insert_head h (some q) s okNode okStr).map (fun r => (r.ret, r.q)) := by
  cases okNode with
  | false => rw [q_insert_head_eq_noNode, q_insert_head_eq_noNode]; rfl
  | true =>
    cases s with
    | none =>
      have h1 : ∀ g : Heap, q_insert_head g (some q) none true okStr = none := by
        intro g
        simp [q_insert_head, malloc_ele]
      rw [h1, h1]
    | some s =>
      cases okStr with
      | false => rw [q_insert_head_eq_noStr, q_insert_head_eq_noStr]; rfl
      | true =>
        rw [q_insert_head_eq, q_insert_head_eq]
        simp [hlen]

/-- The outcome of `q_insert_tail` on a queue whose `tail`, when present, is an
element block, apart from the heap, is the same in two heaps with as many
element blocks. -/
theorem q_insert_tail_local (h h₂ : Heap) (q : queue_t) (s : Option (List Nat))
    (okNode okStr : Bool) (hlen : h₂.eles.length = h.eles.length)
    (htail : ∀ t, q.tail = some t → t < h.eles.length) :
    (q_insert_tail h₂ (some q) s okNode okStr).map (fun r => (r.ret, r.q))
      = (q_insert_tail h (some q) s okNode okStr).map (fun r => (r.ret, r.q)) := by
  cases s with
  | none => rfl
  | some s =>
    cases okNode with
    | false => rw [q_insert_tail_eq_noNode, q_insert_tail_eq_noNode]; rfl
    | true =>
      cases okStr with
      | false => rw [q_insert_tail_eq_noStr, q_insert_tail_eq_noStr]; rfl
      | true =>
        cases ht : q.tail with
        | none =>
          rw [q_insert_tail_eq_none h₂ q s ht, q_insert_tail_eq_none h q s ht]
          simp [hlen]
        | some t =>
          have hlt := htail t ht
          obtain ⟨e, he⟩ : ∃ e, h.eles[t]? = some e := ⟨_, List.getElem?_eq_getElem hlt⟩
          obtain ⟨e₂, he₂⟩ : ∃ e, h₂.eles[t]? = some e :=
            ⟨_, List.getElem?_eq_getElem (by omega)⟩
          rw [q_insert_tail_eq_some h₂ q s t e₂ ht he₂, q_insert_tail_eq_some h q s t e ht he]
          simp [hlen]

/-- The outcome of `q_remove_head`, apart from the heap, is the same in two heaps
that hold the same head element and the same strings. -/
theorem q_remove_head_local (h h₂ : Heap) (q : queue_t) (sp : Option (List Nat))
    (bufsize : Nat) (hstrs : h₂.strs = h.strs)
    (hhead : ∀ a, q.head = some a → h₂.eles[a]? = h.eles[a]?) :
    (q_remove_head h₂ (some q) sp bufsize).map (fun r => (r.ret, r.q, r.sp))
      = (q_remove_head h (some q) sp bufsize).map (fun r => (r.ret, r.q, r.sp)) := by
  cases hq : q.head with
  | none => simp [q_remove_head, hq]
  | some a =>
    have ha := hhead a hq
    simp only [q_remove_head, hq, ha, hstrs]
    cases h.eles[a]? with
    | none => rfl
    | some e =>
      simp only [Option.some_bind]
      cases sp with
      | none => rfl
      | some buf =>
        simp only
        cases e.value with
        | none => rfl
        | some v =>
          simp only [Option.some_bind]
          cases h.strs[v]? with
          | none => rfl
          | some b =>
            simp only [Option.some_bind]
            cases strncpy buf b (size_sub bufsize 1) with
            | none => rfl
            | some buf1 =>
              simp only [Option.some_bind]
              cases store buf1 (size_sub bufsize 1) 0 <;> rfl

/-- C17. Every operation is bounded. On a well-formed queue:
`q_free` returns what its loop returns after exactly `size` iterations (the
loop completes with `size` units of fuel and with no fewer), having released
`size` elements; `q_reverse` returns at once on the empty queue and otherwise
returns what its loop returns after exactly `size - 1` iterations; and the
other operations do not follow the chain: the return value, the queue
structure and the buffer contents of `q_insert_head`, `q_insert_tail` and
`q_remove_head` are the same in every heap that agrees on the element blocks
at `head` and `tail`. -/
theorem loops_bounded (h : Heap) (q : queue_t) (hwf : WellFormed h q) :
    (∃ h1, q_free_loop q.size.toNat h q.head = some h1 ∧
      (∀ fuel, fuel < q.size.toNat → q_free_loop fuel h q.head = none) ∧
      q_free h (some q) = some (h1, true) ∧
      h1.freedEles.length = h.freedEles.length + q.size.toNat) ∧
    (q.head = none → q.size = 0 ∧ q_reverse h (some q) = some (h, some q)) ∧
    (∀ a, q.head = some a →
      ∃ e h1 h2 p, h.eles[a]? = some e ∧ set_next h a none = some h1 ∧
        q_reverse_loop (q.size.toNat - 1) h1 e.next (some a) = some (h2, p) ∧
        (∀ fuel, fuel < q.size.toNat - 1 →
          q_reverse_loop fuel h1 e.next (some a) = none) ∧
        q_reverse h (some q)
          = some (h2, some { head := p, tail := q.head, size := q.size })) ∧
    (∀ h₂ : Heap, h₂.eles.length = h.eles.length → h₂.strs = h.strs →
      (∀ a, q.head = some a ∨ q.tail = some a → h₂.eles[a]? = h.eles[a]?) →
      ∀ (s : Option (List Nat)) (okNode okStr : Bool) (sp : Option (List Nat)) (bufsize : Nat),
        (q_insert_head h₂ (some q) s okNode okStr).map (fun r => (r.ret, r.q))
          = (q_insert_head h (some q) s okNode okStr).map (fun r => (r.ret, r.q)) ∧
        (q_insert_tail h₂ (some q) s okNode okStr).map (fun r => (r.ret, r.q))
          = (q_insert_tail h (some q) s okNode okStr).map (fun r => (r.ret, r.q)) ∧
        (q_remove_head h₂ (some q) sp bufsize).map (fun r => (r.ret, r.q, r.sp))
          = (q_remove_head h (some q) sp bufsize).map (fun r => (r.ret, r.q, r.sp))) := by
  obtain ⟨l, hw⟩ := hwf
  have hi := hw.toInvAt
  have hc := invAt_isChain hi
  have hlenle := isChain_length_le hc
  have hsz : q.size.toNat = l.length := by
    rw [hw.size_eq]
    simp
  refine ⟨?_, ?_, ?_, ?_⟩
  · refine ⟨⟨h.eles, h.strs, h.freedEles ++ l, h.freedStrs ++ l.filterMap (valueOf h)⟩,
      ?_, ?_, ?_, ?_⟩
    · rw [q_free_loop_eq _ h q.head hc, if_pos (Nat.le_of_eq hsz.symm)]
    · intro fuel hlt
      rw [q_free_loop_eq _ h q.head hc, if_neg (by omega)]
    · have hfree : q_free h (some q)
          = (q_free_loop h.eles.length h q.head).map fun h1 => (h1, true) := rfl
      rw [hfree, q_free_loop_eq h.eles.length h q.head hc, if_pos hlenle]
      rfl
    · simp [hsz]
  · intro hhead
    rw [hhead] at hc
    have hl : l = [] := by
      cases l with
      | nil => rfl
      | cons a l => cases (isChain_cons.mp hc).1
    subst hl
    refine ⟨by simpa using hw.size_eq, ?_⟩
    simp [q_reverse, hhead]
  · intro a hhead
    rw [hhead] at hc
    cases l with
    | nil => cases isChain_nil.mp hc
    | cons a' l =>
      have hnd := isChain_nodup hc
      have hc0 := hc
      rw [isChain_cons] at hc
      obtain ⟨haa, e, he, hrest⟩ := hc
      cases haa
      have hal : a ∉ l := (List.nodup_cons.mp hnd).1
      have hrest1 := isChain_set_of_not_mem { e with next := none } hal hrest
      have hlook : (h.eles.set a { e with next := none })[a]? = some { e with next := none } :=
        List.getElem?_set_self (lt_of_getElem?_eq_some he)
      have hdone : IsChain ⟨h.eles.set a { e with next := none }, h.strs, h.freedEles,
          h.freedStrs⟩ (some a) [a] := by
        rw [isChain_cons]
        exact ⟨rfl, _, hlook, isChain_nil.mpr rfl⟩
      have hdisj : ∀ x ∈ l, x ∉ [a] := by
        intro x hx hmem
        rw [List.mem_singleton] at hmem
        subst hmem
        exact hal hx
      have hk : q.size.toNat - 1 = l.length := by
        rw [hsz]
        simp
      obtain ⟨h2, p, hrun, _⟩ :=
        q_reverse_loop_spec l.length _ e.next (some a) [a] hrest1 hdone hdisj (Nat.le_refl _)
      refine ⟨e, _, h2, p, he, set_next_eq he none, ?_, ?_, ?_⟩
      · rw [hk]
        exact hrun
      · intro fuel hlt
        exact q_reverse_loop_none fuel _ e.next (some a) hrest1 (by omega)
      · have hbig := q_reverse_loop_mono l.length (2 * h.eles.length) _ e.next (some a) _ hrun
          (by simp only [List.length_cons] at hlenle; omega)
        simp only [q_reverse, hhead, he, Option.some_bind, set_next_eq he, hbig]
  · intro h₂ hlen hstrs hblocks s okNode okStr sp bufsize
    refine ⟨q_insert_head_local h h₂ q s okNode okStr hlen,
      q_insert_tail_local h h₂ q s okNode okStr hlen hi.tailValid,
      q_remove_head_local h h₂ q sp bufsize hstrs (fun a ha => hblocks a (Or.inl ha))⟩

/-- C17, at the queue `c, a, b`. -/
theorem loops_bounded_witness :
    (∃ h1, q_free_loop queueCAB.size.toNat heapCAB queueCAB.head = some h1 ∧
      (∀ fuel, fuel < queueCAB.size.toNat → q_free_loop fuel heapCAB queueCAB.head = none) ∧
      q_free heapCAB (some queueCAB) = some (h1, true) ∧
      h1.freedEles.length = heapCAB.freedEles.length + queueCAB.size.toNat) ∧
    (queueCAB.head = none →
      queueCAB.size = 0 ∧ q_reverse heapCAB (some queueCAB) = some (heapCAB, some queueCAB)) ∧
    (∀ a, queueCAB.head = some a →
      ∃ e h1 h2 p, heapCAB.eles[a]? = some e ∧ set_next heapCAB a none = some h1 ∧
        q_reverse_loop (queueCAB.size.toNat - 1) h1 e.next (some a) = some (h2, p) ∧
        (∀ fuel, fuel < queueCAB.size.toNat - 1 →
          q_reverse_loop fuel h1 e.next (some a) = none) ∧
        q_reverse heapCAB (some queueCAB)
          = some (h2, some { head := p, tail := queueCAB.head, size := queueCAB.size })) ∧
    (∀ h₂ : Heap, h₂.eles.length = heapCAB.eles.length → h₂.strs = heapCAB.strs →
      (∀ a, queueCAB.head = some a ∨ queueCAB.tail = some a →
        h₂.eles[a]? = heapCAB.eles[a]?) →
      ∀ (s : Option (List Nat)) (okNode okStr : Bool) (sp : Option (List Nat)) (bufsize : Nat),
        (q_insert_head h₂ (some queueCAB) s okNode okStr).map (fun r => (r.ret, r.q))
          = (q_insert_head heapCAB (some queueCAB) s okNode okStr).map
              (fun r => (r.ret, r.q)) ∧
        (q_insert_tail h₂ (some queueCAB) s okNode okStr).map (fun r => (r.ret, r.q))
          = (q_insert_tail heapCAB (some queueCAB) s okNode okStr).map
              (fun r => (r.ret, r.q)) ∧
        (q_remove_head h₂ (some queueCAB) sp bufsize).map (fun r => (r.ret, r.q, r.sp))
          = (q_remove_head heapCAB (some queueCAB) sp bufsize).map
              (fun r => (r.ret, r.q, r.sp))) :=
  loops_bounded heapCAB queueCAB wellFormed_CAB

/-! ## Runs with checked accesses -/

theorem set_next_checked_eq {h : Heap} {a : Nat} (ha : a ∉ h.freedEles) (n : Option Nat) :
    set_next_checked h a n = set_next h a n := by
  simp [set_next_checked, ha]

theorem load_ele_eq {h : Heap} {a : Nat} (ha : a ∉ h.freedEles) :
    load_ele h a = h.eles[a]? := by
  simp [load_ele, ha]

theorem load_str_eq {h : Heap} {v : Nat} (hv : v ∉ h.freedStrs) :
    load_str h v = h.strs[v]? := by
  simp [load_str, hv]

/-- Insertion at the head touches no block but those it allocates: with checked
accesses it returns what `q_insert_head` returns. -/
theorem q_insert_head_checked_eq (h : Heap) (q : Option queue_t) (s : Option (List Nat))
    (okNode okStr : Bool) (hh : HeapOk h) :
    q_insert_head_checked h q s okNode okStr = q_insert_head h q s okNode okStr := by
  have hn : h.eles.length ∉ h.freedEles := fun hf => Nat.lt_irrefl _ (hh.1 _ hf)
  have hd : h.strs.length ∉ h.freedStrs := fun hf => Nat.lt_irrefl _ (hh.2 _ hf)
  cases q with
  | none => rfl
  | some q =>
    cases okNode with
    | false => simp [q_insert_head_checked, q_insert_head, malloc_ele]
    | true =>
      cases s with
      | none => simp [q_insert_head_checked, q_insert_head, malloc_ele]
      | some s =>
        cases okStr with
        | false =>
          simp [q_insert_head_checked, q_insert_head, malloc_ele, malloc_str,
            free_ele_checked, hn]
        | true =>
          rw [q_insert_head_eq]
          simp only [q_insert_head_checked, malloc_ele, malloc_str, if_true, strcpy_checked,
            hd, if_false]
          rw [strcpy_fresh]
          by_cases hq : q.head = none <;>
            simp [set_value_checked, set_next_checked, set_value, set_next, hq, hn,
              List.set_append]

/-- Insertion at the tail with checked accesses returns what `q_insert_tail` returns
when `tail` is absent or points to an unreleased element. -/
theorem q_insert_tail_checked_eq (h : Heap) (q : Option queue_t) (s : Option (List Nat))
    (okNode okStr : Bool) (hh : HeapOk h)
    (htail : ∀ q0 t, q = some q0 → q0.tail = some t →
      t < h.eles.length ∧ (staleTailStore ⟨h, q, 0, 0⟩ (Op.insert_tail s okNode okStr) = false)) :
    q_insert_tail_checked h q s okNode okStr = q_insert_tail h q s okNode okStr := by
  have hn : h.eles.length ∉ h.freedEles := fun hf => Nat.lt_irrefl _ (hh.1 _ hf)
  have hd : h.strs.length ∉ h.freedStrs := fun hf => Nat.lt_irrefl _ (hh.2 _ hf)
  cases q with
  | none => cases s <;> rfl
  | some q =>
    cases s with
    | none => rfl
    | some s =>
      cases okNode with
      | false => simp [q_insert_tail_checked, q_insert_tail, malloc_ele]
      | true =>
        cases okStr with
        | false =>
          simp [q_insert_tail_checked, q_insert_tail, malloc_ele, malloc_str,
            free_ele_checked, hn]
        | true =>
          cases ht : q.tail with
          | none =>
            rw [q_insert_tail_eq_none h q s ht]
            simp only [q_insert_tail_checked, malloc_ele, malloc_str, if_true, strcpy_checked,
              hd, if_false]
            rw [strcpy_fresh]
            simp [set_value_checked, set_next_checked, set_value, set_next, ht, hn,
              List.set_append]
          | some t =>
            obtain ⟨hlt, hst⟩ := htail q t rfl ht
            have htl : t ∉ h.freedEles := by
              simpa [staleTailStore, ht] using hst
            obtain ⟨e, he⟩ : ∃ e, h.eles[t]? = some e := ⟨_, List.getElem?_eq_getElem hlt⟩
            rw [q_insert_tail_eq_some h q s t e ht he]
            simp only [q_insert_tail_checked, malloc_ele, malloc_str, if_true, strcpy_checked,
              hd, if_false]
            rw [strcpy_fresh]
            simp [set_value_checked, set_next_checked, set_value, set_next, ht, hn, htl,
              List.set_append, List.getElem?_append, hlt, he, Nat.ne_of_lt hlt]

/-- Insertion at the tail with checked accesses has no defined outcome when it
stores through a stale `tail`. -/
theorem q_insert_tail_checked_stale (r : Run) (s : Option (List Nat)) (okNode okStr : Bool)
    (hh : HeapOk r.heap) (hst : staleTailStore r (Op.insert_tail s okNode okStr) = true) :
    q_insert_tail_checked r.heap r.q s okNode okStr = none := by
  obtain ⟨h, q, ins, rem⟩ := r
  have hn : h.eles.length ∉ h.freedEles := fun hf => Nat.lt_irrefl _ (hh.1 _ hf)
  have hd : h.strs.length ∉ h.freedStrs := fun hf => Nat.lt_irrefl _ (hh.2 _ hf)
  cases s with
  | none => simp [staleTailStore] at hst
  | some s =>
    cases okNode with
    | false => simp [staleTailStore] at hst
    | true =>
      cases okStr with
      | false => simp [staleTailStore] at hst
      | true =>
        cases q with
        | none => simp [staleTailStore] at hst
        | some q =>
          cases ht : q.tail with
          | none => simp [staleTailStore, ht] at hst
          | some t =>
            have htl : t ∈ h.freedEles := by
              simpa [staleTailStore, ht] using hst
            simp only [q_insert_tail_checked, malloc_ele, malloc_str, if_true, strcpy_checked,
              hd, if_false]
            rw [strcpy_fresh]
            simp [set_value_checked, set_next_checked, set_value, set_next, ht, hn, htl,
              List.set_append]

/-- Removal touches the head element and its string only, both unreleased under the
invariant: with checked accesses it returns what `q_remove_head` returns. -/
theorem q_remove_head_checked_eq (h : Heap) (q : Option queue_t) (sp : Option (List Nat))
    (bufsize : Nat) (hinv : ∀ q0, q = some q0 → Inv h q0) :
    q_remove_head_checked h q sp bufsize = q_remove_head h q sp bufsize := by
  cases q with
  | none => rfl
  | some q =>
    obtain ⟨l, hi⟩ := hinv q rfl
    cases l with
    | nil =>
      have hhead := invAt_head_nil hi
      simp [q_remove_head_checked, q_remove_head, hhead]
    | cons a l =>
      have hhead := invAt_head_cons hi
      obtain ⟨e, v, b, he, hev, hb, _, _, _⟩ := invAt_remove_head hi
      have ha : a ∉ h.freedEles := hi.live a (List.mem_cons_self a l)
      have halt : a < h.eles.length := lt_of_getElem?_eq_some he
      obtain ⟨v', hv', hvlt, hvf⟩ := hi.value a (List.mem_cons_self a l)
      have hvv : v' = v := by
        simp only [valueOf, he, Option.some_bind, hev, Option.some.injEq] at hv'
        exact hv'.symm
      subst hvv
      simp only [q_remove_head_checked, q_remove_head, hhead, load_ele_eq ha, he,
        Option.some_bind, hev, load_str_eq hvf, hb]
      cases sp with
      | none =>
        simp [free_str_checked, free_ele_checked, free_str, free_ele, hvf, ha,
          Nat.not_le.mpr hvlt, Nat.not_le.mpr halt]
      | some buf =>
        simp only [Option.some_bind]
        cases strncpy buf b (size_sub bufsize 1) with
        | none => rfl
        | some buf1 =>
          simp only [Option.some_bind]
          cases store buf1 (size_sub bufsize 1) 0 with
          | none => rfl
          | some buf2 =>
            simp [free_str_checked, free_ele_checked, free_str, free_ele, hvf, ha,
              Nat.not_le.mpr hvlt, Nat.not_le.mpr halt]

/-- The loop of `q_reverse` on a chain of unreleased elements: with checked accesses
it returns what the loop returns. -/
theorem q_reverse_loop_checked_eq {todo : List Nat} :
    ∀ (fuel : Nat) (h : Heap) (temp prev : Option Nat), IsChain h temp todo →
      (∀ a ∈ todo, a ∉ h.freedEles) →
      q_reverse_loop_checked fuel h temp prev = q_reverse_loop fuel h temp prev := by
  induction todo with
  | nil =>
    intro fuel h temp prev hc _
    rw [isChain_nil] at hc
    subst hc
    cases fuel <;> rfl
  | cons t todo ih =>
    intro fuel h temp prev hc hlive
    have hnd := isChain_nodup hc
    rw [isChain_cons] at hc
    obtain ⟨htemp, e, he, hrest⟩ := hc
    subst htemp
    cases fuel with
    | zero => rfl
    | succ fuel =>
      have ht : t ∉ h.freedEles := hlive t (List.mem_cons_self t todo)
      have htn : t ∉ todo := (List.nodup_cons.mp hnd).1
      have hrest1 := isChain_set_of_not_mem { e with next := prev } htn hrest
      simp only [q_reverse_loop_checked, q_reverse_loop, load_ele_eq ht, he, Option.some_bind,
        set_next_checked_eq ht, set_next_eq he]
      exact ih fuel _ e.next (some t) hrest1
        (fun a ha => hlive a (List.mem_cons_of_mem t ha))

/-- Reversal touches the elements of the chain only, all unreleased under the
invariant: with checked accesses it returns what `q_reverse` returns. -/
theorem q_reverse_checked_eq (h : Heap) (q : Option queue_t)
    (hinv : ∀ q0, q = some q0 → Inv h q0) :
    q_reverse_checked h q = q_reverse h q := by
  cases q with
  | none => rfl
  | some q =>
    obtain ⟨l, hi⟩ := hinv q rfl
    cases l with
    | nil =>
      have hhead := invAt_head_nil hi
      simp [q_reverse_checked, q_reverse, hhead]
    | cons a l =>
      have hhead := invAt_head_cons hi
      have hc := invAt_isChain hi
      have hnd := isChain_nodup hc
      rw [isChain_cons] at hc
      obtain ⟨_, e, he, hrest⟩ := hc
      have ha : a ∉ h.freedEles := hi.live a (List.mem_cons_self a l)
      have hal : a ∉ l := (List.nodup_cons.mp hnd).1
      have hrest1 := isChain_set_of_not_mem { e with next := none } hal hrest
      simp only [q_reverse_checked, q_reverse, hhead, load_ele_eq ha, he, Option.some_bind,
        set_next_checked_eq ha, set_next_eq he]
      rw [q_reverse_loop_checked_eq _ _ e.next (some a) hrest1
        (fun x hx => hi.live x (List.mem_cons_of_mem a hx))]

/-- A call that does not store through a stale `tail`, on a state that satisfies the
invariant of runs: with checked accesses it returns what the call returns. -/
theorem step_checked_eq (r : Run) (op : Op) (hr : RunInv r)
    (hst : staleTailStore r op = false) : step_checked r op = step r op := by
  obtain ⟨h, q, ins, rem⟩ := r
  obtain ⟨hh, hinv, _⟩ := hr
  cases op with
  | insert_head s okNode okStr =>
    simp only [step_checked, step, q_insert_head_checked_eq h q s okNode okStr hh]
  | insert_tail s okNode okStr =>
    have heq : q_insert_tail_checked h q s okNode okStr = q_insert_tail h q s okNode okStr := by
      apply q_insert_tail_checked_eq h q s okNode okStr hh
      intro q0 t hq ht
      subst hq
      obtain ⟨l, hi⟩ := hinv q0 rfl
      exact ⟨hi.tailValid t ht, hst⟩
    simp only [step_checked, step, heq]
  | remove_head sp bufsize =>
    simp only [step_checked, step, q_remove_head_checked_eq h q sp bufsize hinv]
  | reverse =>
    simp only [step_checked, step, q_reverse_checked_eq h q hinv]

/-- A call that stores through a stale `tail` has no defined outcome. -/
theorem step_checked_stale (r : Run) (op : Op) (hr : RunInv r)
    (hst : staleTailStore r op = true) : step_checked r op = none := by
  cases op with
  | insert_tail s okNode okStr =>
    simp only [step_checked, q_insert_tail_checked_stale r s okNode okStr hr.1 hst,
      Option.map_none']
  | insert_head s okNode okStr => simp [staleTailStore] at hst
  | remove_head sp bufsize => simp [staleTailStore] at hst
  | reverse => simp [staleTailStore] at hst

/-- A run with valid arguments and without a store through a stale `tail` has a
defined outcome, the one of the run without checks, and keeps the invariant
of runs. -/
theorem run_checked_eq (ops : List Op) :
    ∀ (r : Run), RunInv r → (∀ op ∈ ops, op.Valid) → noStaleStore r ops = true →
      ∃ r', run_checked r ops = some r' ∧ run r ops = some r' ∧ RunInv r' := by
  induction ops with
  | nil => intro r hr _ _; exact ⟨r, rfl, rfl, hr⟩
  | cons op ops ih =>
    intro r hr hv hs
    obtain ⟨r1, hstep, hr1⟩ := runInv_step r op hr (hv op (List.mem_cons_self op ops))
    simp only [noStaleStore, Bool.and_eq_true, Bool.not_eq_true'] at hs
    obtain ⟨hst, hrest⟩ := hs
    have hchk : step_checked r op = some r1 := by rw [step_checked_eq r op hr hst, hstep]
    rw [hchk] at hrest
    obtain ⟨r', hrun, hrun', hr'⟩ :=
      ih r1 hr1 (fun o ho => hv o (List.mem_cons_of_mem op ho)) hrest
    exact ⟨r', by simp only [run_checked, hchk, Option.some_bind, hrun],
      by simp only [run, hstep, Option.some_bind, hrun'], hr'⟩

/-- A run with valid arguments in which a call stores through a stale `tail` has no
defined outcome. -/
theorem run_checked_stale (ops : List Op) :
    ∀ (r : Run), RunInv r → (∀ op ∈ ops, op.Valid) → noStaleStore r ops = false →
      run_checked r ops = none := by
  induction ops with
  | nil => intro r _ _ hs; simp [noStaleStore] at hs
  | cons op ops ih =>
    intro r hr hv hs
    cases hst : staleTailStore r op with
    | true => simp only [run_checked, step_checked_stale r op hr hst, Option.none_bind]
    | false =>
      obtain ⟨r1, hstep, hr1⟩ := runInv_step r op hr (hv op (List.mem_cons_self op ops))
      have hchk : step_checked r op = some r1 := by rw [step_checked_eq r op hr hst, hstep]
      simp only [noStaleStore, hst, Bool.not_false, Bool.true_and, hchk] at hs
      simp only [run_checked, hchk, Option.some_bind]
      exact ih r1 hr1 (fun o ho => hv o (List.mem_cons_of_mem op ho)) hs

/-! ## The count and the `int` that `q_size` returns -/

theorem to_int_of_le {x : Int} (h0 : 0 ≤ x) (h1 : x ≤ INT_MAX) : to_int x = x := by
  unfold to_int
  unfold INT_MAX at h1
  omega

theorem to_int_two_pow_31 : to_int ((2147483648 : Nat) : Int) = -2147483648 := by
  decide

/-- In every state that satisfies the invariant of runs the count is not
negative. -/
theorem runInv_count_nonneg {r : Run} (hr : RunInv r) : 0 ≤ q_count r.q := by
  obtain ⟨_, hinv, _⟩ := hr
  cases hq : r.q with
  | none => simp [q_count]
  | some q =>
    obtain ⟨l, hi⟩ := hinv q hq
    have := hi.size
    simp only [q_count]
    omega

theorem q_size_eq_to_int (q : Option queue_t) : q_size q = to_int (q_count q) := by
  cases q with
  | none => rfl
  | some q => rfl

theorem noStaleStore_insertHeads (n : Nat) (s : List Nat) :
    ∀ r : Run, noStaleStore r (insertHeads n s) = true := by
  induction n with
  | zero => intro r; rfl
  | succ n ih =>
    intro r
    have hcons : insertHeads (n + 1) s
        = Op.insert_head (some s) true true :: insertHeads n s := by
      simp [insertHeads, List.replicate_succ]
    rw [hcons]
    simp only [noStaleStore, staleTailStore, Bool.not_false, Bool.true_and]
    cases step_checked r (Op.insert_head (some s) true true) with
    | none => rfl
    | some r1 => exact ih r1

theorem valid_insertHeads (n : Nat) (s : List Nat) : ∀ op ∈ insertHeads n s, op.Valid := by
  intro op hop
  simp only [insertHeads, List.mem_map, List.mem_replicate] at hop
  obtain ⟨x, _, rfl⟩ := hop
  exact Option.some_ne_none _

/-- Inserting `n` copies of a string at the head of a new queue: every call returns
`true` and the count is `n`. -/
theorem run_insertHeads (n : Nat) (s : List Nat) :
    ∃ r, run_checked (start emptyHeap true) (insertHeads n s) = some r ∧
      r.inserted = n ∧ r.removed = 0 ∧ q_count r.q = (n : Int) := by
  obtain ⟨r, hchk, hrun, hr⟩ := run_checked_eq (insertHeads n s) (start emptyHeap true)
    (runInv_start emptyHeap heapOk_emptyHeap true) (valid_insertHeads n s)
    (noStaleStore_insertHeads n s _)
  obtain ⟨h', q', l', hrun', hw, hp⟩ := run_insert_heads (List.replicate n s) emptyHeap
    { head := none, tail := none, size := 0 } [] [] 0 0
    (wellFormedAt_new emptyHeap heapOk_emptyHeap) rfl
  have hstart : start emptyHeap true
      = ⟨emptyHeap, some { head := none, tail := none, size := 0 }, 0, 0⟩ := rfl
  rw [hstart] at hrun
  have hops : insertHeads n s
      = (List.replicate n s).map fun x => Op.insert_head (some x) true true := rfl
  rw [hops, hrun'] at hrun
  cases hrun
  refine ⟨_, hchk, by simp, rfl, ?_⟩
  obtain ⟨ps, hps, hlen⟩ := invAt_payloads hw.toInvAt
  rw [hp] at hps
  cases hps
  simp only [q_count, hw.size_eq, ← hlen]
  simp

/-- C8, as stated, fails in two ways. After `2 ^ 31` successful insertions and no
removal `q_size`, an `int`, returns `-2 ^ 31`, not `2 ^ 31`. And the sequence
that inserts and removes one string and then inserts at the tail has no
defined outcome in C: its last call stores through the released element that
`tail` still points to. -/
theorem q_size_wraps_after_many_insertions :
    (∃ r, run_checked (start emptyHeap true) (insertHeads 2147483648 []) = some r ∧
      r.inserted = 2147483648 ∧ r.removed = 0 ∧ q_size r.q = -2147483648 ∧
      q_size r.q ≠ (r.inserted : Int) - (r.removed : Int)) ∧
    run_checked (start emptyHeap true) fillEmptyFill = none := by
  constructor
  · obtain ⟨r, hrun, hins, hrem, hcount⟩ := run_insertHeads 2147483648 []
    have hsize : q_size r.q = -2147483648 := by
      rw [q_size_eq_to_int, hcount]
      exact to_int_two_pow_31
    refine ⟨r, hrun, hins, hrem, hsize, ?_⟩
    rw [hsize, hins, hrem]
    decide
  · decide

/-- C8, amended. From the queue returned by `q_new`, every finite sequence of
`q_insert_head`, `q_insert_tail`, `q_remove_head` and `q_reverse` calls with
valid arguments in which no call stores through a stale `tail` has a defined
outcome, and `q_size` of the resulting queue is the number of insertion calls
that returned `true` minus the number of `q_remove_head` calls that returned
`true`, as an `int`: it equals that number whenever the number is at most
`INT_MAX`. -/
theorem q_size_counts (h : Heap) (ok : Bool) (ops : List Op) (hh : HeapOk h)
    (hv : ∀ op ∈ ops, op.Valid) (hs : noStaleStore (start h ok) ops = true) :
    ∃ r, run_checked (start h ok) ops = some r ∧
      q_size r.q = to_int ((r.inserted : Int) - (r.removed : Int)) ∧
      ((r.inserted : Int) - (r.removed : Int) ≤ INT_MAX →
        q_size r.q = (r.inserted : Int) - (r.removed : Int)) := by
  obtain ⟨r, hchk, _, hr⟩ := run_checked_eq ops (start h ok) (runInv_start h hh ok) hv hs
  have hnn := runInv_count_nonneg hr
  have hcount := hr.2.2
  refine ⟨r, hchk, ?_, ?_⟩
  · rw [q_size_eq_to_int, hcount]
  · intro hle
    rw [q_size_eq_to_int, hcount]
    rw [hcount] at hnn
    exact to_int_of_le hnn hle

/-- C8, amended, on a run with a failed allocation, a removal that empties the
queue, a removal from the empty queue, and insertions at the head and then at
the tail after it. -/
theorem q_size_counts_witness :
    ∃ r, run_checked (start emptyHeap true)
        [Op.insert_tail (some [97]) true true, Op.insert_head (some [98]) true false,
         Op.reverse, Op.remove_head (some [0, 0]) 2, Op.remove_head none 0,
         Op.insert_head (some [99]) true true, Op.insert_tail (some [100]) true true]
          = some r ∧
      q_size r.q = to_int ((r.inserted : Int) - (r.removed : Int)) ∧
      ((r.inserted : Int) - (r.removed : Int) ≤ INT_MAX →
        q_size r.q = (r.inserted : Int) - (r.removed : Int)) :=
  q_size_counts emptyHeap true _ heapOk_emptyHeap (by
    intro op hop
    simp only [List.mem_cons, List.mem_singleton, List.not_mem_nil, or_false] at hop
    rcases hop with rfl | rfl | rfl | rfl | rfl | rfl | rfl
    · trivial
    · exact Option.some_ne_none _
    · trivial
    · intro buf hb; cases hb; decide
    · intro buf hb; cases hb
    · exact Option.some_ne_none _
    · trivial) (by decide)

/-! ## The invariant of reachable states -/

end QueueLab
